import Mathlib

/-!
Verification of Passenger's CachedFileStat (src/ext/common/Utils/CachedFileStat.hpp):
a bounded LRU cache of file stat results with per-entry time throttling.

Modelling choices:
* machine integers: time_t values are Int; the C cast (unsigned int) x is
  modelled as (x % 2^32).toNat;
* the std::list of shared_ptr<Entry> nodes is a list of (node id, entry)
  pairs, front = most recently used; a list iterator stored in the map is
  the stable node id;
* the external collaborators (syscalls::stat, SystemTime::get, StringMap)
  are not part of src/ and are modelled from the spec as oracle parameters
  respectively a plain association list;
* a C++ exception thrown by the clock or by the interrupted stat wrapper is
  modelled by an Option-valued result: none means the exception propagated
  to the caller (the lock guard releases the mutex on unwind, so the state
  reached at the throw point is the state observed afterwards).
-/

namespace PassengerCFS

/-- Fixed-size file metadata record: model of the POSIX struct stat buffer
copied around by CachedFileStat. Only a representative set of fields is kept;
the cache treats the record as opaque data. -/
structure StatInfo where
  st_mode : Nat
  st_uid : Nat
  st_gid : Nat
  st_size : Nat
  st_mtime : Int
deriving Repr, DecidableEq

/-- The all-zero metadata record produced by memset in the Entry constructor. -/
def StatInfo.zero : StatInfo :=
  { st_mode := 0, st_uid := 0, st_gid := 0, st_size := 0, st_mtime := 0 }

/-- Modelled from the spec: outcome of one call to the external metadata-query
provider (syscalls::stat, the oxt wrapper of the OS stat call, not under
src/). ok carries the metadata written to the buffer (return value 0, errno
untouched); error carries the failure code placed in errno (return value -1,
buffer untouched); interrupted means the wrapper threw
boost::thread_interrupted before returning. -/
inductive StatResponse where
  | ok (info : StatInfo)
  | error (code : Nat)
  | interrupted
deriving Repr, DecidableEq

/-- Modelled from the spec: outcome of one call to the external clock provider
(SystemTime::get, not under src/): the current time, or a thrown
TimeRetrievalException / boost::thread_interrupted. -/
inductive ClockResult where
  | ok (t : Int)
  | interrupted
deriving Repr, DecidableEq

/-- The modulus 2^32 of the C (unsigned int) conversion in Entry::expired. -/
def twoPow32 : Int := 4294967296

/-- A cached file stat entry (CachedFileStat::Entry). last_result, last_errno
and last_time are its private fields; info and filename are public. -/
structure Entry where
  last_result : Int
  last_errno : Nat
  last_time : Int
  info : StatInfo
  filename : String
deriving Repr, DecidableEq

/-- Entry constructor: info zeroed by memset, last_result = -1,
last_errno = 0, last_time = 0. -/
def Entry.mk0 (filename : String) : Entry :=
  { last_result := -1, last_errno := 0, last_time := 0,
    info := StatInfo.zero, filename := filename }

/-- Entry::expired: (unsigned int)(currentTime - begin) >= interval. The
clock read placed inside expired by the source is modelled in refresh, which
passes the obtained value down. -/
def Entry.expired (begin : Int) (interval : Nat) (currentTime : Int) : Bool :=
  decide (interval ≤ ((currentTime - begin) % twoPow32).toNat)

/-- Effect of one real stat call on an entry, the body of the expired branch
of Entry::refresh: last_result = syscalls::stat(filename, &info);
last_errno = errno; last_time = currentTime; return last_result. errno0 is
the thread's errno before the call. Returns (updated entry, return value,
errno after the call); none models the interrupted wrapper throwing before
any field is assigned. -/
def Entry.applyStat (e : Entry) (resp : StatResponse) (currentTime : Int) (errno0 : Nat) :
    Option (Entry × Int × Nat) :=
  match resp with
  | StatResponse.ok newInfo =>
      some ({ e with last_result := 0, last_errno := errno0,
                     last_time := currentTime, info := newInfo }, 0, errno0)
  | StatResponse.error code =>
      some ({ e with last_result := -1, last_errno := code,
                     last_time := currentTime }, -1, code)
  | StatResponse.interrupted => none

/-- Entry::refresh. The single clock read is the clock argument; a clock
failure propagates (none) before anything is mutated. On no trigger the
source sets errno = last_errno and returns last_result, mutating nothing. -/
def Entry.refresh (e : Entry) (clock : ClockResult) (resp : StatResponse)
    (errno0 throttleRate : Nat) : Option (Entry × Int × Nat) :=
  match clock with
  | ClockResult.interrupted => none
  | ClockResult.ok currentTime =>
      if Entry.expired e.last_time throttleRate currentTime then
        e.applyStat resp currentTime errno0
      else
        some (e, e.last_result, e.last_errno)

/-- Modelled from the spec: the path-keyed associative lookup (StringMap,
declared outside src/) backing the index, as an association list from
filename to list-node id. get returns none when the key is absent
(the entries.end() default of the source). -/
def smGet : List (String × Nat) → String → Option Nat
  | [], _ => none
  | kv :: rest, key => if kv.1 = key then some kv.2 else smGet rest key

/-- Modelled from the spec: StringMap set, overwriting the binding if the key
is present and adding one otherwise. -/
def smSet : List (String × Nat) → String → Nat → List (String × Nat)
  | [], key, v => [(key, v)]
  | kv :: rest, key, v => if kv.1 = key then (key, v) :: rest else kv :: smSet rest key v

/-- Modelled from the spec: StringMap remove. -/
def smRemove : List (String × Nat) → String → List (String × Nat)
  | [], _ => []
  | kv :: rest, key => if kv.1 = key then rest else kv :: smRemove rest key

/-- The cache (class CachedFileStat): capacity, the recency list of nodes
(front = most recently used), the filename-to-iterator map, and the supply
of fresh node ids. -/
structure CachedFileStat where
  maxSize : Nat
  entries : List (Nat × Entry)
  cache : List (String × Nat)
  nextId : Nat
deriving Repr, DecidableEq

/-- CachedFileStat constructor: empty structures, the given maximum size
(0 means unlimited). -/
def CachedFileStat.init (maxSize : Nat) : CachedFileStat :=
  { maxSize := maxSize, entries := [], cache := [], nextId := 0 }

/-- Dereference a stored iterator: the first node with the given id. -/
def findNode : List (Nat × Entry) → Nat → Option (Nat × Entry)
  | [], _ => none
  | n :: rest, id => if n.1 = id then some n else findNode rest id

/-- Unlink the node with the given id (the removal half of list::splice). -/
def eraseNode : List (Nat × Entry) → Nat → List (Nat × Entry)
  | [], _ => []
  | n :: rest, id => if n.1 = id then rest else n :: eraseNode rest id

/-- Overwrite the entry held by the node with the given id (the in-place
mutation performed through the shared_ptr by Entry::refresh). -/
def updateNode : List (Nat × Entry) → Nat → Entry → List (Nat × Entry)
  | [], _, _ => []
  | n :: rest, id, e => if n.1 = id then (n.1, e) :: rest else n :: updateNode rest id e

/-- The oldest-entry removal step shared by CachedFileStat::stat (cache full
on a miss) and the shrink loop of CachedFileStat::setMaxSize: read the back
node's filename, pop_back the list, remove the filename from the map. -/
def CachedFileStat.popBack (cfs : CachedFileStat) : CachedFileStat :=
  match cfs.entries.getLast? with
  | none => cfs
  | some lastNode =>
      { cfs with entries := cfs.entries.dropLast,
                 cache := smRemove cfs.cache lastNode.2.filename }

/-- Tail of CachedFileStat::stat once the entry is located or created:
ret = entry->refresh(throttleRate); *buf = entry->info; return ret. The
entry is addressed by its node id (in both branches of the source it is the
front node). A thrown interruption propagates (none) after the structural
updates already performed; the lock guard still releases the mutex. -/
def CachedFileStat.finishStat (cfs : CachedFileStat) (id : Nat) (clock : ClockResult)
    (resp : StatResponse) (errno0 throttleRate : Nat) :
    CachedFileStat × Option (Int × Nat × StatInfo) :=
  match findNode cfs.entries id with
  | none => (cfs, none)
  | some n =>
      match n.2.refresh clock resp errno0 throttleRate with
      | none => (cfs, none)
      | some (e2, ret, err) =>
          ({ cfs with entries := updateNode cfs.entries id e2 }, some (ret, err, e2.info))

/-- CachedFileStat::stat. Returns the cache state after the call, and none
when refresh threw (the exception propagates to the caller) or
some (return value, errno after the call, the buffer copied from info). -/
def CachedFileStat.statOp (cfs : CachedFileStat) (filename : String) (clock : ClockResult)
    (resp : StatResponse) (errno0 throttleRate : Nat) :
    CachedFileStat × Option (Int × Nat × StatInfo) :=
  match smGet cfs.cache filename with
  | none =>
      let cfs1 := if cfs.maxSize ≠ 0 ∧ cfs.cache.length = cfs.maxSize then cfs.popBack else cfs
      let cfs2 := { cfs1 with
                      entries := (cfs1.nextId, Entry.mk0 filename) :: cfs1.entries,
                      cache := smSet cfs1.cache filename cfs1.nextId,
                      nextId := cfs1.nextId + 1 }
      cfs2.finishStat cfs1.nextId clock resp errno0 throttleRate
  | some id =>
      match findNode cfs.entries id with
      | none => (cfs, none)
      | some n =>
          let cfs2 := { cfs with
                          entries := n :: eraseNode cfs.entries id,
                          cache := smSet cfs.cache filename id }
          cfs2.finishStat id clock resp errno0 throttleRate

/-- CachedFileStat::setMaxSize: when the new size is nonzero, remove
(int)(cache.size() - maxSize) entries from the back (no iterations when that
signed value is negative or zero), then store the new size. -/
def CachedFileStat.popBackN (cfs : CachedFileStat) : Nat → CachedFileStat
  | 0 => cfs
  | k + 1 => (cfs.popBack).popBackN k

def CachedFileStat.setMaxSize (cfs : CachedFileStat) (newMaxSize : Nat) : CachedFileStat :=
  let cfs1 :=
    if newMaxSize ≠ 0 then
      cfs.popBackN ((cfs.cache.length : Int) - (newMaxSize : Int)).toNat
    else cfs
  { cfs1 with maxSize := newMaxSize }

/-- CachedFileStat::knows: whether filename is in the cache map (the source
compares the looked-up iterator with a default-constructed one, which the
map's get returns for missing keys). -/
def CachedFileStat.knows (cfs : CachedFileStat) (filename : String) : Bool :=
  (smGet cfs.cache filename).isSome

/-- One call to CachedFileStat::stat with its external-collaborator outcomes. -/
structure QueryCall where
  filename : String
  clock : ClockResult
  resp : StatResponse
  errno0 : Nat
  throttleRate : Nat
deriving Repr, DecidableEq

def applyQuery (cfs : CachedFileStat) (q : QueryCall) : CachedFileStat :=
  (cfs.statOp q.filename q.clock q.resp q.errno0 q.throttleRate).1

def runQueries (cfs : CachedFileStat) (qs : List QueryCall) : CachedFileStat :=
  qs.foldl applyQuery cfs

/-- A public mutating operation of the cache. -/
inductive CacheOp where
  | query (q : QueryCall)
  | setCapacity (n : Nat)
deriving Repr, DecidableEq

def applyOp (cfs : CachedFileStat) : CacheOp → CachedFileStat
  | CacheOp.query q => applyQuery cfs q
  | CacheOp.setCapacity n => cfs.setMaxSize n

def runOps (cfs : CachedFileStat) (ops : List CacheOp) : CachedFileStat :=
  ops.foldl applyOp cfs

/-- The filenames of the cached entries in recency order (specification
helper; most recently used first). -/
def keysOf (cfs : CachedFileStat) : List String :=
  cfs.entries.map (fun n => n.2.filename)

/-- The filename-to-id association carried by the node list (specification
helper: what the map must equal up to permutation). -/
def nodeKeys (entries : List (Nat × Entry)) : List (String × Nat) :=
  entries.map (fun n => (n.2.filename, n.1))

/-- The entry a query for f will resolve: the stored one on a hit, a fresh
one on a miss (specification helper). -/
def CachedFileStat.lookupEntry (cfs : CachedFileStat) (f : String) : Entry :=
  match smGet cfs.cache f with
  | none => Entry.mk0 f
  | some id =>
      match findNode cfs.entries id with
      | some n => n.2
      | none => Entry.mk0 f

/-- Structural well-formedness: the map is the filename-to-id association of
the node list up to permutation, filenames and ids are duplicate-free, all
ids are below nextId, and the size respects a nonzero capacity. -/
def CachedFileStat.Inv (cfs : CachedFileStat) : Prop :=
  cfs.cache.Perm (nodeKeys cfs.entries) ∧
  (cfs.entries.map (fun n => n.2.filename)).Nodup ∧
  (cfs.entries.map Prod.fst).Nodup ∧
  (∀ p ∈ cfs.entries, p.1 < cfs.nextId) ∧
  (cfs.maxSize ≠ 0 → cfs.entries.length ≤ cfs.maxSize)

instance (cfs : CachedFileStat) : Decidable cfs.Inv := by
  unfold CachedFileStat.Inv
  infer_instance

/-! Lemmas about the association-list model of the StringMap. -/

theorem smGet_eq_none {l : List (String × Nat)} {k : String} :
    smGet l k = none ↔ k ∉ l.map Prod.fst := by
  induction l with
  | nil => simp [smGet]
  | cons kv rest ih =>
      by_cases h : kv.1 = k
      · simp [smGet, h]
      · have h' : k ≠ kv.1 := fun he => h he.symm
        simp [smGet, h, ih, h']

theorem smGet_some_mem {l : List (String × Nat)} {k : String} {v : Nat}
    (h : smGet l k = some v) : (k, v) ∈ l := by
  induction l with
  | nil => simp [smGet] at h
  | cons kv rest ih =>
      by_cases hk : kv.1 = k
      · simp [smGet, hk] at h
        subst hk h
        simp
      · simp [smGet, hk] at h
        exact List.mem_cons_of_mem _ (ih h)

theorem mem_smGet {l : List (String × Nat)} {k : String} {v : Nat}
    (nd : (l.map Prod.fst).Nodup) (h : (k, v) ∈ l) : smGet l k = some v := by
  induction l with
  | nil => simp at h
  | cons kv rest ih =>
      simp only [List.map_cons, List.nodup_cons] at nd
      rcases List.mem_cons.1 h with h1 | h1
      · subst h1
        simp [smGet]
      · have hk : kv.1 ≠ k := by
          intro he
          exact nd.1 (he ▸ (List.mem_map.2 ⟨(k, v), h1, rfl⟩))
        simp [smGet, hk]
        exact ih nd.2 h1

theorem smSet_absent {l : List (String × Nat)} {k : String} (v : Nat)
    (h : k ∉ l.map Prod.fst) : smSet l k v = l ++ [(k, v)] := by
  induction l with
  | nil => simp [smSet]
  | cons kv rest ih =>
      simp only [List.map_cons, List.mem_cons, not_or] at h
      have hk : kv.1 ≠ k := fun he => h.1 he.symm
      simp [smSet, hk, ih h.2]

theorem smSet_present_same {l : List (String × Nat)} {k : String} {v : Nat}
    (h : smGet l k = some v) : smSet l k v = l := by
  induction l with
  | nil => simp [smGet] at h
  | cons kv rest ih =>
      obtain ⟨k1, v1⟩ := kv
      by_cases hk : k1 = k
      · simp only [smGet, hk, if_pos, Option.some.injEq] at h
        simp [smSet, hk, h]
      · simp only [smGet, hk, if_neg, not_false_iff] at h
        simp [smSet, hk, ih h]

theorem smGet_smSet_self (l : List (String × Nat)) (k : String) (v : Nat) :
    smGet (smSet l k v) k = some v := by
  induction l with
  | nil => simp [smSet, smGet]
  | cons kv rest ih =>
      by_cases hk : kv.1 = k <;> simp [smSet, hk, smGet, ih]

theorem smRemove_cons_perm {l : List (String × Nat)} {k : String} {v : Nat}
    (nd : (l.map Prod.fst).Nodup) (h : (k, v) ∈ l) :
    l.Perm ((k, v) :: smRemove l k) := by
  induction l with
  | nil => simp at h
  | cons kv rest ih =>
      simp only [List.map_cons, List.nodup_cons] at nd
      rcases List.mem_cons.1 h with h1 | h1
      · subst h1
        simp [smRemove]
      · have hk : kv.1 ≠ k := by
          intro he
          exact nd.1 (he ▸ (List.mem_map.2 ⟨(k, v), h1, rfl⟩))
        simp only [smRemove, hk, if_neg]
        exact ((ih nd.2 h1).cons kv).trans (List.Perm.swap _ _ _)

theorem smGet_perm {l₁ l₂ : List (String × Nat)} (p : l₁.Perm l₂)
    (nd : (l₁.map Prod.fst).Nodup) (k : String) : smGet l₁ k = smGet l₂ k := by
  have nd₂ : (l₂.map Prod.fst).Nodup := ((p.map Prod.fst).nodup_iff).1 nd
  cases h : smGet l₁ k with
  | none =>
      have : k ∉ l₂.map Prod.fst := by
        intro hm
        exact (smGet_eq_none.1 h) (((p.map Prod.fst).mem_iff).2 hm)
      exact (smGet_eq_none.2 this).symm
  | some v =>
      exact (mem_smGet nd₂ (p.mem_iff.1 (smGet_some_mem h))).symm

/-! Lemmas about the node-list model of the entries list. -/

theorem nodup_keys_eq {α β : Type} {l : List (α × β)}
    (nd : (l.map Prod.fst).Nodup) {a b : α × β}
    (ha : a ∈ l) (hb : b ∈ l) (h : a.1 = b.1) : a = b := by
  induction l with
  | nil => simp at ha
  | cons x rest ih =>
      simp only [List.map_cons, List.nodup_cons] at nd
      rcases List.mem_cons.1 ha with h1 | h1 <;> rcases List.mem_cons.1 hb with h2 | h2
      · exact h1.trans h2.symm
      · subst h1
        exfalso
        apply nd.1
        rw [h]
        exact List.mem_map.2 ⟨b, h2, rfl⟩
      · subst h2
        exfalso
        apply nd.1
        rw [← h]
        exact List.mem_map.2 ⟨a, h1, rfl⟩
      · exact ih nd.2 h1 h2

theorem findNode_some {l : List (Nat × Entry)} {id : Nat} {n : Nat × Entry}
    (h : findNode l id = some n) : n.1 = id ∧ n ∈ l := by
  induction l with
  | nil => simp [findNode] at h
  | cons m rest ih =>
      by_cases hm : m.1 = id
      · simp [findNode, hm] at h
        subst h
        exact ⟨hm, List.mem_cons_self _ _⟩
      · simp [findNode, hm] at h
        exact ⟨(ih h).1, List.mem_cons_of_mem _ (ih h).2⟩

theorem findNode_isSome {l : List (Nat × Entry)} {id : Nat} {m : Nat × Entry}
    (hm : m ∈ l) (hid : m.1 = id) : ∃ n, findNode l id = some n := by
  induction l with
  | nil => simp at hm
  | cons x rest ih =>
      by_cases hx : x.1 = id
      · exact ⟨x, by simp [findNode, hx]⟩
      · rcases List.mem_cons.1 hm with h1 | h1
        · exact absurd (h1 ▸ hid) hx
        · rcases ih h1 with ⟨n, hn⟩
          exact ⟨n, by simp [findNode, hx, hn]⟩

theorem findNode_decomp {l : List (Nat × Entry)} {id : Nat} {n : Nat × Entry}
    (h : findNode l id = some n) :
    ∃ l₁ l₂, l = l₁ ++ n :: l₂ ∧ eraseNode l id = l₁ ++ l₂ := by
  induction l with
  | nil => simp [findNode] at h
  | cons m rest ih =>
      by_cases hm : m.1 = id
      · simp [findNode, hm] at h
        subst h
        exact ⟨[], rest, by simp, by simp [eraseNode, hm]⟩
      · simp [findNode, hm] at h
        rcases ih h with ⟨l₁, l₂, h1, h2⟩
        exact ⟨m :: l₁, l₂, by simp [h1], by simp [eraseNode, hm, h2]⟩

theorem eraseNode_subset {l : List (Nat × Entry)} {id : Nat} :
    ∀ x ∈ eraseNode l id, x ∈ l := by
  induction l with
  | nil => simp [eraseNode]
  | cons m rest ih =>
      intro x hx
      by_cases hm : m.1 = id
      · simp [eraseNode, hm] at hx
        exact List.mem_cons_of_mem _ hx
      · simp [eraseNode, hm] at hx
        rcases hx with h1 | h1
        · exact h1 ▸ List.mem_cons_self _ _
        · exact List.mem_cons_of_mem _ (ih x h1)

theorem refresh_filename {e e2 : Entry} {clock : ClockResult} {resp : StatResponse}
    {errno0 throttleRate : Nat} {ret : Int} {err : Nat}
    (h : e.refresh clock resp errno0 throttleRate = some (e2, ret, err)) :
    e2.filename = e.filename := by
  cases clock with
  | interrupted => simp [Entry.refresh] at h
  | ok ct =>
      by_cases hx : Entry.expired e.last_time throttleRate ct
      · cases resp <;> simp [Entry.refresh, hx, Entry.applyStat] at h <;>
          simp [← h.1]
      · simp [Entry.refresh, hx] at h
        simp [← h.1]

theorem refresh_info_of_error {e e2 : Entry} {clock : ClockResult} {code : Nat}
    {errno0 throttleRate : Nat} {ret : Int} {err : Nat}
    (h : e.refresh clock (StatResponse.error code) errno0 throttleRate = some (e2, ret, err)) :
    e2.info = e.info := by
  cases clock with
  | interrupted => simp [Entry.refresh] at h
  | ok ct =>
      by_cases hx : Entry.expired e.last_time throttleRate ct
      · simp [Entry.refresh, hx, Entry.applyStat] at h
        simp [← h.1]
      · simp [Entry.refresh, hx] at h
        simp [← h.1]

/-! Unfolding lemmas for CachedFileStat::stat and the shrink step. -/

/-- The structural state reached by a miss of CachedFileStat::stat before
refresh runs, with e the entry held by the new front node afterwards
(specification helper for the unfolding lemmas). -/
def CachedFileStat.missState (cfs : CachedFileStat) (f : String) (e : Entry) : CachedFileStat :=
  let cfs1 := if cfs.maxSize ≠ 0 ∧ cfs.cache.length = cfs.maxSize then cfs.popBack else cfs
  { cfs1 with entries := (cfs1.nextId, e) :: cfs1.entries,
              cache := smSet cfs1.cache f cfs1.nextId,
              nextId := cfs1.nextId + 1 }

/-- The structural state reached by a hit of CachedFileStat::stat on node n
before refresh runs, with e the entry held by the spliced front node
afterwards (specification helper for the unfolding lemmas). -/
def CachedFileStat.hitState (cfs : CachedFileStat) (f : String) (id : Nat)
    (n : Nat × Entry) (e : Entry) : CachedFileStat :=
  { cfs with entries := (n.1, e) :: eraseNode cfs.entries id,
             cache := smSet cfs.cache f id }

theorem statOp_miss_none {cfs : CachedFileStat} {f : String} {clock : ClockResult}
    {resp : StatResponse} {errno0 t : Nat}
    (h : smGet cfs.cache f = none)
    (hr : (Entry.mk0 f).refresh clock resp errno0 t = none) :
    cfs.statOp f clock resp errno0 t = (cfs.missState f (Entry.mk0 f), none) := by
  unfold CachedFileStat.statOp CachedFileStat.missState
  rw [h]
  simp [CachedFileStat.finishStat, findNode, hr]

theorem statOp_miss_some {cfs : CachedFileStat} {f : String} {clock : ClockResult}
    {resp : StatResponse} {errno0 t : Nat} {e2 : Entry} {ret : Int} {err : Nat}
    (h : smGet cfs.cache f = none)
    (hr : (Entry.mk0 f).refresh clock resp errno0 t = some (e2, ret, err)) :
    cfs.statOp f clock resp errno0 t = (cfs.missState f e2, some (ret, err, e2.info)) := by
  unfold CachedFileStat.statOp CachedFileStat.missState
  rw [h]
  simp [CachedFileStat.finishStat, findNode, hr, updateNode]

theorem statOp_hit_dangling {cfs : CachedFileStat} {f : String} {clock : ClockResult}
    {resp : StatResponse} {errno0 t : Nat} {id : Nat}
    (h : smGet cfs.cache f = some id)
    (hn : findNode cfs.entries id = none) :
    cfs.statOp f clock resp errno0 t = (cfs, none) := by
  unfold CachedFileStat.statOp
  simp only [h, hn]

theorem statOp_hit_none {cfs : CachedFileStat} {f : String} {clock : ClockResult}
    {resp : StatResponse} {errno0 t : Nat} {id : Nat} {n : Nat × Entry}
    (h : smGet cfs.cache f = some id)
    (hn : findNode cfs.entries id = some n)
    (hr : n.2.refresh clock resp errno0 t = none) :
    cfs.statOp f clock resp errno0 t = (cfs.hitState f id n n.2, none) := by
  have hid : n.1 = id := (findNode_some hn).1
  unfold CachedFileStat.statOp CachedFileStat.hitState
  simp only [h, hn]
  subst hid
  simp [CachedFileStat.finishStat, findNode, hr]

theorem statOp_hit_some {cfs : CachedFileStat} {f : String} {clock : ClockResult}
    {resp : StatResponse} {errno0 t : Nat} {id : Nat} {n : Nat × Entry}
    {e2 : Entry} {ret : Int} {err : Nat}
    (h : smGet cfs.cache f = some id)
    (hn : findNode cfs.entries id = some n)
    (hr : n.2.refresh clock resp errno0 t = some (e2, ret, err)) :
    cfs.statOp f clock resp errno0 t = (cfs.hitState f id n e2, some (ret, err, e2.info)) := by
  have hid : n.1 = id := (findNode_some hn).1
  unfold CachedFileStat.statOp CachedFileStat.hitState
  simp only [h, hn]
  simp [CachedFileStat.finishStat, findNode, hid, hr, updateNode]

theorem getLast?_decomp {α : Type} : ∀ {l : List α} {a : α},
    l.getLast? = some a → ∃ l', l = l' ++ [a]
  | [], a, h => by simp at h
  | [x], a, h => by
      simp [List.getLast?] at h
      exact ⟨[], by simp [h]⟩
  | x :: y :: rest, a, h => by
      rw [List.getLast?_cons_cons] at h
      rcases getLast?_decomp h with ⟨l', hl⟩
      exact ⟨x :: l', by simp [hl]⟩

theorem popBack_entries (cfs : CachedFileStat) :
    (cfs.popBack).entries = cfs.entries.dropLast := by
  unfold CachedFileStat.popBack
  cases h : cfs.entries.getLast? with
  | none =>
      have he : cfs.entries = [] := List.getLast?_eq_none_iff.1 h
      simp [he]
  | some ln => simp

theorem popBack_maxSize (cfs : CachedFileStat) :
    (cfs.popBack).maxSize = cfs.maxSize := by
  unfold CachedFileStat.popBack
  cases h : cfs.entries.getLast? <;> simp

theorem popBack_nextId (cfs : CachedFileStat) :
    (cfs.popBack).nextId = cfs.nextId := by
  unfold CachedFileStat.popBack
  cases h : cfs.entries.getLast? <;> simp

theorem popBack_cache_perm {cfs : CachedFileStat}
    (hc : cfs.cache.Perm (nodeKeys cfs.entries))
    (hf : (cfs.entries.map (fun n => n.2.filename)).Nodup) :
    (cfs.popBack).cache.Perm (nodeKeys cfs.entries.dropLast) := by
  unfold CachedFileStat.popBack
  cases h : cfs.entries.getLast? with
  | none =>
      have he : cfs.entries = [] := List.getLast?_eq_none_iff.1 h
      rw [he] at hc
      simpa [he, nodeKeys] using hc
  | some ln =>
      rcases getLast?_decomp h with ⟨l', hl⟩
      have hdrop : cfs.entries.dropLast = l' := by simp [hl]
      have hnk : nodeKeys cfs.entries = nodeKeys l' ++ [(ln.2.filename, ln.1)] := by
        simp [hl, nodeKeys]
      have hperm1 : cfs.cache.Perm ((ln.2.filename, ln.1) :: nodeKeys l') := by
        rw [hnk] at hc
        exact hc.trans (List.perm_append_singleton _ _)
      have hmem : (ln.2.filename, ln.1) ∈ cfs.cache :=
        hperm1.mem_iff.2 (List.mem_cons_self _ _)
      have hkeysnd : (cfs.cache.map Prod.fst).Nodup := by
        apply ((hc.map Prod.fst).nodup_iff).2
        have hm : (nodeKeys cfs.entries).map Prod.fst =
            cfs.entries.map (fun n => n.2.filename) := by
          simp [nodeKeys]
        rw [hm]
        exact hf
      have hrm := smRemove_cons_perm hkeysnd hmem
      have hchain := (hrm.symm.trans hperm1).cons_inv
      simp only []
      rw [hdrop]
      exact hchain

/-! Preservation of the structural invariant. -/

theorem nodeKeys_map_fst (l : List (Nat × Entry)) :
    (nodeKeys l).map Prod.fst = l.map (fun n => n.2.filename) := by
  simp [nodeKeys]

theorem Inv_init (m : Nat) : (CachedFileStat.init m).Inv := by
  refine ⟨?_, ?_, ?_, ?_, ?_⟩ <;> simp [CachedFileStat.init, nodeKeys]

/-- The core of the invariant, without the size bound (what popBack and the
push step preserve unconditionally). -/
def CachedFileStat.Core (cfs : CachedFileStat) : Prop :=
  cfs.cache.Perm (nodeKeys cfs.entries) ∧
  (cfs.entries.map (fun n => n.2.filename)).Nodup ∧
  (cfs.entries.map Prod.fst).Nodup ∧
  (∀ p ∈ cfs.entries, p.1 < cfs.nextId)

theorem Core_of_Inv {cfs : CachedFileStat} (h : cfs.Inv) : cfs.Core :=
  ⟨h.1, h.2.1, h.2.2.1, h.2.2.2.1⟩

theorem Core_popBack {cfs : CachedFileStat} (h : cfs.Core) : (cfs.popBack).Core := by
  obtain ⟨hc, hf, hi, hb⟩ := h
  refine ⟨?_, ?_, ?_, ?_⟩
  · rw [popBack_entries]
    exact popBack_cache_perm hc hf
  · rw [popBack_entries]
    rw [List.map_dropLast]
    exact hf.sublist (List.dropLast_sublist _)
  · rw [popBack_entries]
    rw [List.map_dropLast]
    exact hi.sublist (List.dropLast_sublist _)
  · intro p hp
    rw [popBack_entries] at hp
    rw [popBack_nextId]
    exact hb p ((List.dropLast_sublist _).subset hp)

theorem popBack_length (cfs : CachedFileStat) :
    (cfs.popBack).entries.length = cfs.entries.length - 1 := by
  rw [popBack_entries, List.length_dropLast]

/-- Pushing a fresh entry at a fresh node id preserves the invariant when
there is room. -/
theorem Inv_push {c : CachedFileStat} {f : String} {e : Entry}
    (hcore : c.Core)
    (hlen : c.maxSize ≠ 0 → c.entries.length < c.maxSize)
    (hfresh : f ∉ c.entries.map (fun n => n.2.filename))
    (he : e.filename = f) :
    CachedFileStat.Inv { c with entries := (c.nextId, e) :: c.entries,
                                cache := smSet c.cache f c.nextId,
                                nextId := c.nextId + 1 } := by
  obtain ⟨hc, hf, hi, hb⟩ := hcore
  have hkeys : c.cache.map Prod.fst = [] ∨ True := Or.inr trivial
  have hnotmem : f ∉ c.cache.map Prod.fst := by
    intro hmem
    exact hfresh (by
      have := (hc.map Prod.fst).mem_iff.1 hmem
      rwa [nodeKeys_map_fst] at this)
  refine ⟨?_, ?_, ?_, ?_, ?_⟩
  · rw [smSet_absent _ hnotmem]
    have h1 : (c.cache ++ [(f, c.nextId)]).Perm ((f, c.nextId) :: c.cache) :=
      List.perm_append_singleton _ _
    refine h1.trans ?_
    have h2 : nodeKeys ((c.nextId, e) :: c.entries) =
        (f, c.nextId) :: nodeKeys c.entries := by
      simp [nodeKeys, he]
    rw [h2]
    exact hc.cons _
  · simp only [List.map_cons, List.nodup_cons]
    exact ⟨by simpa [he] using hfresh, hf⟩
  · simp only [List.map_cons, List.nodup_cons]
    constructor
    · intro hmem
      rcases List.mem_map.1 hmem with ⟨p, hp, hp1⟩
      exact absurd (hp1 ▸ hb p hp) (lt_irrefl _)
    · exact hi
  · intro p hp
    rcases List.mem_cons.1 hp with h1 | h1
    · simp [h1]
    · exact Nat.lt_succ_of_lt (hb p h1)
  · intro hms
    simp only [List.length_cons]
    exact Nat.succ_le_of_lt (hlen hms)

theorem Inv_missState {cfs : CachedFileStat} {f : String} {e : Entry}
    (hInv : cfs.Inv) (h : smGet cfs.cache f = none) (he : e.filename = f) :
    (cfs.missState f e).Inv := by
  have hfresh : f ∉ cfs.entries.map (fun n => n.2.filename) := by
    have h1 : f ∉ cfs.cache.map Prod.fst := smGet_eq_none.1 h
    intro hmem
    apply h1
    apply (hInv.1.map Prod.fst).mem_iff.2
    rwa [nodeKeys_map_fst]
  have hlencache : cfs.cache.length = cfs.entries.length := by
    have := hInv.1.length_eq
    simpa [nodeKeys] using this
  unfold CachedFileStat.missState
  by_cases hfull : cfs.maxSize ≠ 0 ∧ cfs.cache.length = cfs.maxSize
  · rw [if_pos hfull]
    apply Inv_push (Core_popBack (Core_of_Inv hInv))
    · intro _
      rw [popBack_maxSize, popBack_length]
      omega
    · rw [popBack_entries, List.map_dropLast]
      intro hmem
      exact hfresh ((List.dropLast_sublist _).subset hmem)
    · exact he
  · rw [if_neg hfull]
    apply Inv_push (Core_of_Inv hInv)
    · intro hms
      have hle := hInv.2.2.2.2 hms
      have hne : cfs.cache.length ≠ cfs.maxSize := by
        intro hx
        exact hfull ⟨hms, hx⟩
      omega
    · exact hfresh
    · exact he

theorem Inv_hitState {cfs : CachedFileStat} {f : String} {id : Nat}
    {n : Nat × Entry} {e : Entry}
    (hInv : cfs.Inv) (h : smGet cfs.cache f = some id)
    (hn : findNode cfs.entries id = some n)
    (he : e.filename = n.2.filename) :
    (cfs.hitState f id n e).Inv := by
  obtain ⟨hc, hf, hi, hb, hlen⟩ := hInv
  rcases findNode_decomp hn with ⟨l₁, l₂, hdec, herase⟩
  have hsame : smSet cfs.cache f id = cfs.cache := smSet_present_same h
  have hpm : cfs.entries.Perm (n :: (l₁ ++ l₂)) := by
    rw [hdec]
    exact List.perm_middle
  have hentries2 : (cfs.hitState f id n e).entries = (n.1, e) :: (l₁ ++ l₂) := by
    simp [CachedFileStat.hitState, herase]
  have hcache2 : (cfs.hitState f id n e).cache = cfs.cache := by
    simp [CachedFileStat.hitState, hsame]
  refine ⟨?_, ?_, ?_, ?_, ?_⟩
  · rw [hentries2, hcache2]
    have h2 : nodeKeys ((n.1, e) :: (l₁ ++ l₂)) = nodeKeys (n :: (l₁ ++ l₂)) := by
      simp [nodeKeys, he]
    rw [h2]
    exact hc.trans (hpm.map _)
  · rw [hentries2]
    have h2 : ((n.1, e) :: (l₁ ++ l₂)).map (fun m => m.2.filename) =
        (n :: (l₁ ++ l₂)).map (fun m => m.2.filename) := by
      simp [he]
    rw [h2]
    exact ((hpm.map _).nodup_iff).1 hf
  · rw [hentries2]
    have h2 : ((n.1, e) :: (l₁ ++ l₂)).map Prod.fst =
        (n :: (l₁ ++ l₂)).map Prod.fst := by
      simp
    rw [h2]
    exact ((hpm.map _).nodup_iff).1 hi
  · rw [hentries2]
    intro p hp
    have hnext : (cfs.hitState f id n e).nextId = cfs.nextId := by
      simp [CachedFileStat.hitState]
    rw [hnext]
    rcases List.mem_cons.1 hp with h1 | h1
    · have : n ∈ cfs.entries := (findNode_some hn).2
      have := hb n this
      simp [h1]
      exact this
    · exact hb p (hpm.mem_iff.2 (List.mem_cons_of_mem _ h1))
  · intro hms
    rw [hentries2]
    have hms2 : (cfs.hitState f id n e).maxSize = cfs.maxSize := by
      simp [CachedFileStat.hitState]
    rw [hms2] at hms ⊢
    have hlen2 : cfs.entries.length = ((n.1, e) :: (l₁ ++ l₂)).length := by
      rw [hpm.length_eq]
      simp
    rw [← hlen2]
    exact hlen hms

/-- Every branch of CachedFileStat::stat preserves the invariant. -/
theorem Inv_statOp {cfs : CachedFileStat} (hInv : cfs.Inv) (f : String)
    (clock : ClockResult) (resp : StatResponse) (errno0 t : Nat) :
    ((cfs.statOp f clock resp errno0 t).1).Inv := by
  cases h : smGet cfs.cache f with
  | none =>
      cases hr : (Entry.mk0 f).refresh clock resp errno0 t with
      | none =>
          rw [statOp_miss_none h hr]
          exact Inv_missState hInv h rfl
      | some v =>
          obtain ⟨e2, ret, err⟩ := v
          rw [statOp_miss_some h hr]
          exact Inv_missState hInv h (refresh_filename hr)
  | some id =>
      cases hn : findNode cfs.entries id with
      | none =>
          rw [statOp_hit_dangling h hn]
          exact hInv
      | some n =>
          cases hr : n.2.refresh clock resp errno0 t with
          | none =>
              rw [statOp_hit_none h hn hr]
              exact Inv_hitState hInv h hn rfl
          | some v =>
              obtain ⟨e2, ret, err⟩ := v
              rw [statOp_hit_some h hn hr]
              exact Inv_hitState hInv h hn (refresh_filename hr)

theorem popBackN_core {cfs : CachedFileStat} (h : cfs.Core) (k : Nat) :
    (cfs.popBackN k).Core := by
  induction k generalizing cfs with
  | zero => exact h
  | succ k ih => exact ih (Core_popBack h)

theorem popBackN_entries (cfs : CachedFileStat) (k : Nat) :
    (cfs.popBackN k).entries = cfs.entries.take (cfs.entries.length - k) := by
  induction k generalizing cfs with
  | zero => simp [CachedFileStat.popBackN, List.take_length]
  | succ k ih =>
      show ((cfs.popBack).popBackN k).entries = _
      rw [ih, popBack_entries, List.dropLast_eq_take, List.length_take, List.take_take]
      congr 1
      omega

theorem popBackN_maxSize (cfs : CachedFileStat) (k : Nat) :
    (cfs.popBackN k).maxSize = cfs.maxSize := by
  induction k generalizing cfs with
  | zero => rfl
  | succ k ih =>
      show ((cfs.popBack).popBackN k).maxSize = _
      rw [ih, popBack_maxSize]

theorem Inv_setMaxSize {cfs : CachedFileStat} (hInv : cfs.Inv) (n : Nat) :
    (cfs.setMaxSize n).Inv := by
  have hlencache : cfs.cache.length = cfs.entries.length := by
    have := hInv.1.length_eq
    simpa [nodeKeys] using this
  unfold CachedFileStat.setMaxSize
  by_cases hn : n ≠ 0
  · rw [if_pos hn]
    set k := ((cfs.cache.length : Int) - (n : Int)).toNat with hk
    have hcore := popBackN_core (Core_of_Inv hInv) k
    obtain ⟨hc, hf, hi, hb⟩ := hcore
    refine ⟨hc, hf, hi, hb, ?_⟩
    intro _
    have hlen1 : (cfs.popBackN k).entries.length =
        min (cfs.entries.length - k) cfs.entries.length := by
      rw [popBackN_entries, List.length_take]
    simp only [hlen1]
    omega
  · rw [if_neg hn]
    push_neg at hn
    obtain ⟨hc, hf, hi, hb, _⟩ := hInv
    exact ⟨hc, hf, hi, hb, by simp [hn]⟩

theorem Inv_runOps {cfs : CachedFileStat} (hInv : cfs.Inv) (ops : List CacheOp) :
    (runOps cfs ops).Inv := by
  induction ops generalizing cfs with
  | nil => exact hInv
  | cons op rest ih =>
      show (runOps (applyOp cfs op) rest).Inv
      apply ih
      cases op with
      | query q => exact Inv_statOp hInv _ _ _ _ _
      | setCapacity n => exact Inv_setMaxSize hInv n

/-! Evolution of the recency-ordered filename list under query calls. -/

theorem missState_maxSize (cfs : CachedFileStat) (f : String) (e : Entry) :
    (cfs.missState f e).maxSize = cfs.maxSize := by
  unfold CachedFileStat.missState
  by_cases hfull : cfs.maxSize ≠ 0 ∧ cfs.cache.length = cfs.maxSize
  · rw [if_pos hfull]
    simp [popBack_maxSize]
  · rw [if_neg hfull]

theorem hitState_maxSize (cfs : CachedFileStat) (f : String) (id : Nat)
    (n : Nat × Entry) (e : Entry) :
    (cfs.hitState f id n e).maxSize = cfs.maxSize := by
  simp [CachedFileStat.hitState]

theorem statOp_maxSize (cfs : CachedFileStat) (f : String) (clock : ClockResult)
    (resp : StatResponse) (errno0 t : Nat) :
    (cfs.statOp f clock resp errno0 t).1.maxSize = cfs.maxSize := by
  cases h : smGet cfs.cache f with
  | none =>
      cases hr : (Entry.mk0 f).refresh clock resp errno0 t with
      | none => rw [statOp_miss_none h hr]; exact missState_maxSize _ _ _
      | some v =>
          obtain ⟨e2, ret, err⟩ := v
          rw [statOp_miss_some h hr]
          exact missState_maxSize _ _ _
  | some id =>
      cases hn : findNode cfs.entries id with
      | none => rw [statOp_hit_dangling h hn]
      | some n =>
          cases hr : n.2.refresh clock resp errno0 t with
          | none => rw [statOp_hit_none h hn hr]; exact hitState_maxSize _ _ _ _ _
          | some v =>
              obtain ⟨e2, ret, err⟩ := v
              rw [statOp_hit_some h hn hr]
              exact hitState_maxSize _ _ _ _ _

theorem keysOf_missState (cfs : CachedFileStat) (f : String) (e : Entry)
    (he : e.filename = f) :
    keysOf (cfs.missState f e) =
      if cfs.maxSize ≠ 0 ∧ cfs.cache.length = cfs.maxSize
      then f :: (keysOf cfs).dropLast
      else f :: keysOf cfs := by
  unfold CachedFileStat.missState keysOf
  by_cases hfull : cfs.maxSize ≠ 0 ∧ cfs.cache.length = cfs.maxSize
  · rw [if_pos hfull, if_pos hfull]
    simp [popBack_entries, List.map_dropLast, he]
  · rw [if_neg hfull, if_neg hfull]
    simp [he]

theorem keysOf_statOp_miss {cfs : CachedFileStat} {f : String} {clock : ClockResult}
    {resp : StatResponse} {errno0 t : Nat}
    (h : smGet cfs.cache f = none) :
    keysOf (cfs.statOp f clock resp errno0 t).1 =
      if cfs.maxSize ≠ 0 ∧ cfs.cache.length = cfs.maxSize
      then f :: (keysOf cfs).dropLast
      else f :: keysOf cfs := by
  cases hr : (Entry.mk0 f).refresh clock resp errno0 t with
  | none =>
      rw [statOp_miss_none h hr]
      exact keysOf_missState _ _ _ rfl
  | some v =>
      obtain ⟨e2, ret, err⟩ := v
      rw [statOp_miss_some h hr]
      exact keysOf_missState _ _ _ (refresh_filename hr)

theorem smGet_none_of_not_mem {cfs : CachedFileStat} (hInv : cfs.Inv) {f : String}
    (h : f ∉ keysOf cfs) : smGet cfs.cache f = none := by
  apply smGet_eq_none.2
  intro hmem
  apply h
  have h2 := (hInv.1.map Prod.fst).mem_iff.1 hmem
  rwa [nodeKeys_map_fst] at h2

theorem knows_iff {cfs : CachedFileStat} (hInv : cfs.Inv) (f : String) :
    cfs.knows f = true ↔ f ∈ keysOf cfs := by
  unfold CachedFileStat.knows
  constructor
  · intro h
    cases hg : smGet cfs.cache f with
    | none => rw [hg] at h; simp at h
    | some id =>
        have hm1 : (f, id) ∈ cfs.cache := smGet_some_mem hg
        have hm2 : (f, id) ∈ nodeKeys cfs.entries := hInv.1.mem_iff.1 hm1
        rcases List.mem_map.1 hm2 with ⟨m, hm, hmeq⟩
        have hfm : m.2.filename = f := congrArg Prod.fst hmeq
        exact List.mem_map.2 ⟨m, hm, hfm⟩
  · intro h
    cases hg : smGet cfs.cache f with
    | none =>
        exfalso
        apply smGet_eq_none.1 hg
        apply (hInv.1.map Prod.fst).mem_iff.2
        rw [nodeKeys_map_fst]
        exact h
    | some id => simp [hg]

theorem keysOf_statOp_hit {cfs : CachedFileStat} {f : String} (clock : ClockResult)
    (resp : StatResponse) (errno0 t : Nat) (hInv : cfs.Inv)
    (hmem : f ∈ keysOf cfs) :
    ∃ k₁ k₂, keysOf cfs = k₁ ++ f :: k₂ ∧
      keysOf (cfs.statOp f clock resp errno0 t).1 = f :: (k₁ ++ k₂) := by
  cases hg : smGet cfs.cache f with
  | none =>
      exfalso
      apply smGet_eq_none.1 hg
      apply (hInv.1.map Prod.fst).mem_iff.2
      rw [nodeKeys_map_fst]
      exact hmem
  | some id =>
      have hm1 : (f, id) ∈ cfs.cache := smGet_some_mem hg
      have hm2 : (f, id) ∈ nodeKeys cfs.entries := hInv.1.mem_iff.1 hm1
      rcases List.mem_map.1 hm2 with ⟨m, hm, hmeq⟩
      have hfm : m.2.filename = f := congrArg Prod.fst hmeq
      have hidm : m.1 = id := congrArg Prod.snd hmeq
      rcases findNode_isSome hm hidm with ⟨n, hn⟩
      have hnm : n = m :=
        nodup_keys_eq hInv.2.2.1 (findNode_some hn).2 hm ((findNode_some hn).1.trans hidm.symm)
      have hnf : n.2.filename = f := by rw [hnm]; exact hfm
      rcases findNode_decomp hn with ⟨l₁, l₂, hdec, herase⟩
      refine ⟨l₁.map (fun p => p.2.filename), l₂.map (fun p => p.2.filename), ?_, ?_⟩
      · unfold keysOf
        rw [hdec]
        simp [hnf]
      · cases hr : n.2.refresh clock resp errno0 t with
        | none =>
            rw [statOp_hit_none hg hn hr]
            unfold CachedFileStat.hitState keysOf
            simp [herase, hnf]
        | some v =>
            obtain ⟨e2, ret, err⟩ := v
            rw [statOp_hit_some hg hn hr]
            unfold CachedFileStat.hitState keysOf
            simp [herase, (refresh_filename hr).trans hnf]

/-! Membership-within-a-prefix lemmas used for the eviction-protection claim. -/

theorem mem_take_mono {α : Type} {a : α} :
    ∀ (l : List α) (m n : Nat), m ≤ n → a ∈ l.take m → a ∈ l.take n := by
  intro l
  induction l with
  | nil =>
      intro m n _ h
      simp at h
  | cons x rest ih =>
      intro m n hmn h
      cases m with
      | zero => simp at h
      | succ m' =>
          cases n with
          | zero => omega
          | succ n' =>
              rw [List.take_succ_cons] at h ⊢
              rcases List.mem_cons.1 h with h1 | h1
              · exact h1 ▸ List.mem_cons_self _ _
              · exact List.mem_cons_of_mem _ (ih m' n' (by omega) h1)

theorem mem_take_promote {α : Type} {f g : α} (hne : f ≠ g) :
    ∀ (k₁ : List α) (k₂ : List α) (m : Nat), f ∈ (k₁ ++ g :: k₂).take m →
      f ∈ (g :: (k₁ ++ k₂)).take (m + 1) := by
  intro k₁
  induction k₁ with
  | nil =>
      intro k₂ m h
      cases m with
      | zero => simp at h
      | succ m' =>
          simp only [List.nil_append, List.take_succ_cons] at h ⊢
          rcases List.mem_cons.1 h with h1 | h1
          · exact absurd h1 hne
          · exact List.mem_cons_of_mem _ (mem_take_mono _ m' (m' + 1) (by omega) h1)
  | cons x k₁' ih =>
      intro k₂ m h
      cases m with
      | zero => simp at h
      | succ m' =>
          rw [List.cons_append, List.take_succ_cons] at h
          rw [List.take_succ_cons]
          rcases List.mem_cons.1 h with h1 | h1
          · subst h1
            rw [List.cons_append, List.take_succ_cons]
            exact List.mem_cons_of_mem _ (List.mem_cons_self _ _)
          · have h2 := ih k₂ m' h1
            rw [List.take_succ_cons] at h2
            rcases List.mem_cons.1 h2 with h3 | h3
            · exact absurd h3 hne
            · rw [List.cons_append, List.take_succ_cons]
              exact List.mem_cons_of_mem _ (List.mem_cons_of_mem _ (mem_take_mono _ m' m' (le_refl _) h3))

theorem mem_take_dropLast {α : Type} {a : α} {l : List α} {m : Nat}
    (h : a ∈ l.take m) (hm : m + 1 ≤ l.length) : a ∈ l.dropLast.take m := by
  rw [List.dropLast_eq_take, List.take_take]
  have hmin : min m (l.length - 1) = m := by omega
  rw [hmin]
  exact h

/-- A path within the first j+1 recency positions survives any sequence of
queries for other paths, as long as j plus the number of queries stays below
the capacity. -/
theorem survive_queries {f : String} :
    ∀ (qs : List QueryCall) (s : CachedFileStat) (j : Nat),
      s.Inv → s.maxSize ≠ 0 →
      (∀ q ∈ qs, q.filename ≠ f) →
      j + qs.length + 1 ≤ s.maxSize →
      f ∈ (keysOf s).take (j + 1) →
      f ∈ keysOf (runQueries s qs) := by
  intro qs
  induction qs with
  | nil =>
      intro s j _ _ _ _ hf
      exact List.take_subset _ _ hf
  | cons q rest ih =>
      intro s j hInv hms hne hlen hf
      show f ∈ keysOf (runQueries (applyQuery s q) rest)
      have hq : q.filename ≠ f := hne q (List.mem_cons_self _ _)
      have hfq : f ≠ q.filename := fun hx => hq hx.symm
      have hmem : f ∈ (keysOf (applyQuery s q)).take (j + 1 + 1) := by
        by_cases hqmem : q.filename ∈ keysOf s
        · rcases keysOf_statOp_hit q.clock q.resp q.errno0 q.throttleRate hInv hqmem with
            ⟨k₁, k₂, hks, hks'⟩
          unfold applyQuery
          rw [hks']
          rw [hks] at hf
          exact mem_take_promote hfq k₁ k₂ (j + 1) hf
        · have hnone : smGet s.cache q.filename = none := smGet_none_of_not_mem hInv hqmem
          unfold applyQuery
          rw [keysOf_statOp_miss hnone]
          by_cases hfull : s.maxSize ≠ 0 ∧ s.cache.length = s.maxSize
          · rw [if_pos hfull]
            rw [List.take_succ_cons]
            apply List.mem_cons_of_mem
            apply mem_take_dropLast hf
            have hlc : s.cache.length = (keysOf s).length := by
              have := hInv.1.length_eq
              unfold keysOf
              simpa [nodeKeys] using this
            have := hfull.2
            simp only [List.length_cons] at *
            omega
          · rw [if_neg hfull]
            rw [List.take_succ_cons]
            exact List.mem_cons_of_mem _ (mem_take_mono _ (j + 1) (j + 1) (le_refl _) hf)
      apply ih (applyQuery s q) (j + 1) (Inv_statOp hInv _ _ _ _ _) ?_ ?_ ?_ hmem
      · unfold applyQuery
        rw [statOp_maxSize]
        exact hms
      · intro q' hq'
        exact hne q' (List.mem_cons_of_mem _ hq')
      · unfold applyQuery
        rw [statOp_maxSize]
        simp only [List.length_cons] at hlen
        omega

/-! Characterization of a run of fresh-path queries (for the eviction-order
claim) and resolution helpers. -/

theorem Inv_runQueries {cfs : CachedFileStat} (hInv : cfs.Inv) (qs : List QueryCall) :
    (runQueries cfs qs).Inv := by
  induction qs generalizing cfs with
  | nil => exact hInv
  | cons q rest ih =>
      show (runQueries (applyQuery cfs q) rest).Inv
      exact ih (Inv_statOp hInv _ _ _ _ _)

theorem runQueries_maxSize (cfs : CachedFileStat) (qs : List QueryCall) :
    (runQueries cfs qs).maxSize = cfs.maxSize := by
  induction qs generalizing cfs with
  | nil => rfl
  | cons q rest ih =>
      show (runQueries (applyQuery cfs q) rest).maxSize = _
      rw [ih]
      unfold applyQuery
      rw [statOp_maxSize]

theorem keysOf_length {cfs : CachedFileStat} (hInv : cfs.Inv) :
    (keysOf cfs).length = cfs.cache.length := by
  have h := hInv.1.length_eq
  simp only [nodeKeys, List.length_map] at h
  unfold keysOf
  rw [List.length_map]
  omega

theorem take_append_take {α : Type} (A B : List α) (n : Nat) :
    (A ++ B.take n).take n = (A ++ B).take n := by
  rw [List.take_append_eq_append_take, List.take_append_eq_append_take, List.take_take]
  have hm : (n - A.length) ⊓ n = n - A.length := inf_eq_left.2 (Nat.sub_le _ _)
  rw [hm]

/-- On a miss with nonzero capacity, the new recency list is the truncation
of the consed one at the capacity. -/
theorem keysOf_statOp_miss_take {cfs : CachedFileStat} {f : String} {clock : ClockResult}
    {resp : StatResponse} {errno0 t : Nat}
    (hInv : cfs.Inv) (hms : cfs.maxSize ≠ 0)
    (h : smGet cfs.cache f = none) :
    keysOf (cfs.statOp f clock resp errno0 t).1 =
      (f :: keysOf cfs).take cfs.maxSize := by
  rw [keysOf_statOp_miss h]
  have hlenk : (keysOf cfs).length = cfs.cache.length := keysOf_length hInv
  have hlene : cfs.cache.length = cfs.entries.length := by
    have := hInv.1.length_eq
    simpa [nodeKeys] using this
  have hbound : cfs.entries.length ≤ cfs.maxSize := hInv.2.2.2.2 hms
  by_cases hfull : cfs.maxSize ≠ 0 ∧ cfs.cache.length = cfs.maxSize
  · rw [if_pos hfull]
    obtain ⟨c', hc'⟩ : ∃ c', cfs.maxSize = c' + 1 := by
      cases hx : cfs.maxSize with
      | zero => exact absurd hx hms
      | succ c' => exact ⟨c', rfl⟩
    rw [hc', List.take_succ_cons, List.dropLast_eq_take]
    congr 1
    have hkl : (keysOf cfs).length = c' + 1 := by omega
    rw [hkl, Nat.add_sub_cancel]
  · rw [if_neg hfull]
    have hne : cfs.cache.length ≠ cfs.maxSize := fun hx => hfull ⟨hms, hx⟩
    rw [List.take_of_length_le]
    simp only [List.length_cons]
    omega

/-- Running a list of queries for pairwise-distinct paths that are all absent
from the cache leaves exactly the most recent capacity-many of them (newest
first) on top of the prior contents, truncated at the capacity. -/
theorem fresh_queries_keys :
    ∀ (qs : List QueryCall) (s : CachedFileStat),
      s.Inv → s.maxSize ≠ 0 →
      (∀ q ∈ qs, q.filename ∉ keysOf s) →
      (qs.map QueryCall.filename).Nodup →
      keysOf (runQueries s qs) =
        ((qs.map QueryCall.filename).reverse ++ keysOf s).take s.maxSize := by
  intro qs
  induction qs with
  | nil =>
      intro s hInv hms _ _
      show keysOf s = (keysOf s).take s.maxSize
      rw [List.take_of_length_le]
      rw [keysOf_length hInv]
      have := hInv.1.length_eq
      have h2 : s.cache.length = s.entries.length := by simpa [nodeKeys] using this
      rw [h2]
      exact hInv.2.2.2.2 hms
  | cons q rest ih =>
      intro s hInv hms hfresh hnd
      show keysOf (runQueries (applyQuery s q) rest) = _
      have hnone' : smGet s.cache q.filename = none :=
        smGet_none_of_not_mem hInv (hfresh q (List.mem_cons_self _ _))
      have hstep : keysOf (applyQuery s q) = (q.filename :: keysOf s).take s.maxSize := by
        unfold applyQuery
        exact keysOf_statOp_miss_take hInv hms hnone'
      simp only [List.map_cons, List.nodup_cons] at hnd
      have hms1 : (applyQuery s q).maxSize = s.maxSize := by
        unfold applyQuery
        rw [statOp_maxSize]
      have hfresh1 : ∀ q' ∈ rest, q'.filename ∉ keysOf (applyQuery s q) := by
        intro q' hq' hmem
        rw [hstep] at hmem
        have hsub := List.take_subset s.maxSize (q.filename :: keysOf s) hmem
        rcases List.mem_cons.1 hsub with h1 | h1
        · exact hnd.1 (h1 ▸ List.mem_map.2 ⟨q', hq', rfl⟩)
        · exact hfresh q' (List.mem_cons_of_mem _ hq') h1
      have := ih (applyQuery s q) (Inv_statOp hInv _ _ _ _ _) (hms1 ▸ hms) hfresh1 hnd.2
      rw [this, hms1, hstep, take_append_take]
      congr 1
      simp [List.append_assoc]

/-- Resolve a cache hit: the stored iterator dereferences to a node whose
entry carries the queried filename. -/
theorem hit_resolve {cfs : CachedFileStat} (hInv : cfs.Inv) {f : String} {id : Nat}
    (hg : smGet cfs.cache f = some id) :
    ∃ n, findNode cfs.entries id = some n ∧ n.1 = id ∧ n.2.filename = f ∧
      cfs.lookupEntry f = n.2 := by
  have hm1 : (f, id) ∈ cfs.cache := smGet_some_mem hg
  have hm2 : (f, id) ∈ nodeKeys cfs.entries := hInv.1.mem_iff.1 hm1
  rcases List.mem_map.1 hm2 with ⟨m, hm, hmeq⟩
  have hfm : m.2.filename = f := congrArg Prod.fst hmeq
  have hidm : m.1 = id := congrArg Prod.snd hmeq
  rcases findNode_isSome hm hidm with ⟨n, hn⟩
  have hnm : n = m :=
    nodup_keys_eq hInv.2.2.1 (findNode_some hn).2 hm ((findNode_some hn).1.trans hidm.symm)
  refine ⟨n, hn, (findNode_some hn).1, by rw [hnm]; exact hfm, ?_⟩
  unfold CachedFileStat.lookupEntry
  simp only [hg, hn]

theorem lookupEntry_filename {cfs : CachedFileStat} (hInv : cfs.Inv) (f : String) :
    (cfs.lookupEntry f).filename = f := by
  cases hg : smGet cfs.cache f with
  | none =>
      unfold CachedFileStat.lookupEntry
      rw [hg]
      simp [Entry.mk0]
  | some id =>
      rcases hit_resolve hInv hg with ⟨n, hn, hid, hfn, hle⟩
      rw [hle]
      exact hfn

theorem missState_entries (cfs : CachedFileStat) (f : String) (e : Entry) :
    (cfs.missState f e).entries =
      ((if cfs.maxSize ≠ 0 ∧ cfs.cache.length = cfs.maxSize then cfs.popBack else cfs).nextId, e) ::
        (if cfs.maxSize ≠ 0 ∧ cfs.cache.length = cfs.maxSize then cfs.popBack else cfs).entries := by
  simp [CachedFileStat.missState]

theorem missState_cache (cfs : CachedFileStat) (f : String) (e : Entry) :
    (cfs.missState f e).cache =
      smSet (if cfs.maxSize ≠ 0 ∧ cfs.cache.length = cfs.maxSize then cfs.popBack else cfs).cache f
        (if cfs.maxSize ≠ 0 ∧ cfs.cache.length = cfs.maxSize then cfs.popBack else cfs).nextId := by
  simp [CachedFileStat.missState]

/-- Characterization of a completed (non-throwing) query: the resolved entry,
after refresh, sits at the head of the recency list, the map points the
queried filename at the head node, and the returned triple is the refresh
result with the refreshed info copied out. -/
theorem statOp_head_some {cfs : CachedFileStat} {f : String} {clock : ClockResult}
    {resp : StatResponse} {errno0 t : Nat} {e2 : Entry} {ret : Int} {err : Nat}
    (hInv : cfs.Inv)
    (hr : (cfs.lookupEntry f).refresh clock resp errno0 t = some (e2, ret, err)) :
    ∃ i rest,
      (cfs.statOp f clock resp errno0 t).1.entries = (i, e2) :: rest ∧
      (cfs.statOp f clock resp errno0 t).2 = some (ret, err, e2.info) ∧
      smGet (cfs.statOp f clock resp errno0 t).1.cache f = some i := by
  cases hg : smGet cfs.cache f with
  | none =>
      have hle : cfs.lookupEntry f = Entry.mk0 f := by
        unfold CachedFileStat.lookupEntry
        rw [hg]
      rw [hle] at hr
      rw [statOp_miss_some hg hr]
      refine ⟨_, _, missState_entries cfs f e2, rfl, ?_⟩
      rw [missState_cache]
      exact smGet_smSet_self _ _ _
  | some id =>
      rcases hit_resolve hInv hg with ⟨n, hn, hid, hfn, hle⟩
      rw [hle] at hr
      rw [statOp_hit_some hg hn hr]
      refine ⟨n.1, _, rfl, rfl, ?_⟩
      show smGet (smSet cfs.cache f id) f = some n.1
      rw [smGet_smSet_self, hid]

/-! Refresh trigger characterization. -/

theorem refresh_no_trigger {e : Entry} {ct : Int} {resp : StatResponse} {errno0 t : Nat}
    (h : ((ct - e.last_time) % twoPow32).toNat < t) :
    e.refresh (ClockResult.ok ct) resp errno0 t = some (e, e.last_result, e.last_errno) := by
  have hexp : Entry.expired e.last_time t ct = false := by
    unfold Entry.expired
    simp only [decide_eq_false_iff_not, not_le]
    exact h
  simp [Entry.refresh, hexp]

theorem refresh_trigger {e : Entry} {ct : Int} {resp : StatResponse} {errno0 t : Nat}
    (h : t ≤ ((ct - e.last_time) % twoPow32).toNat) :
    e.refresh (ClockResult.ok ct) resp errno0 t = e.applyStat resp ct errno0 := by
  have hexp : Entry.expired e.last_time t ct = true := by
    unfold Entry.expired
    simp only [decide_eq_true_eq]
    exact h
  simp [Entry.refresh, hexp]

/-! The claims. -/

/-- C2: for every entry and every triggered refresh whose real metadata query
fails, the metadata snapshot (info) and the filename retain exactly their
prior values; only the recorded outcome (last_result = -1 with the failure
code in last_errno) and last_time change, and the single time value read
during the expiry check becomes the new last_time. -/
theorem C2_failed_refresh_frame (e : Entry) (ct : Int) (code errno0 t : Nat)
    (h : t ≤ ((ct - e.last_time) % twoPow32).toNat) :
    e.refresh (ClockResult.ok ct) (StatResponse.error code) errno0 t =
      some ({ e with last_result := -1, last_errno := code, last_time := ct }, -1, code) := by
  rw [refresh_trigger h]
  rfl

/-- Witness for C2 at a concrete entry and time. -/
theorem C2_failed_refresh_frame_witness :
    (5 : Nat) ≤ (((9 : Int) - (Entry.mk0 "a").last_time) % twoPow32).toNat ∧
    (Entry.mk0 "a").refresh (ClockResult.ok 9) (StatResponse.error 2) 7 5 =
      some ({ Entry.mk0 "a" with last_result := -1, last_errno := 2, last_time := 9 }, -1, 2) :=
  ⟨by decide, C2_failed_refresh_frame (Entry.mk0 "a") 9 2 7 5 (by decide)⟩

/-- C3 counterexample: an entry really queried at time 5 (throttle 1) and
queried again 2^32 seconds later: far more than 1 second has elapsed, yet
the second call performs no real query — it ignores the provider and
returns the cached first result unchanged — because the 32-bit unsigned
difference wraps to 0, refuting the sub-claim that once t seconds have
elapsed a subsequent call performs exactly one real query. -/
theorem C3_counterexample :
    ((Entry.mk0 "a").refresh (ClockResult.ok 5) (StatResponse.error 2) 0 1 =
      some ({ Entry.mk0 "a" with last_result := -1, last_errno := 2, last_time := 5 }, -1, 2)) ∧
    ((1 : Int) ≤ (4294967301 : Int) - 5) ∧
    (({ Entry.mk0 "a" with last_result := -1, last_errno := 2, last_time := 5 } : Entry).refresh
        (ClockResult.ok 4294967301) (StatResponse.ok StatInfo.zero) 0 1 =
      some ({ Entry.mk0 "a" with last_result := -1, last_errno := 2, last_time := 5 }, -1, 2)) ∧
    (({ Entry.mk0 "a" with last_result := -1, last_errno := 2, last_time := 5 } : Entry).refresh
        (ClockResult.ok 4294967301) (StatResponse.ok StatInfo.zero) 0 1 ≠
      ({ Entry.mk0 "a" with last_result := -1, last_errno := 2, last_time := 5 } : Entry).applyStat
        (StatResponse.ok StatInfo.zero) 4294967301 0) := by
  refine ⟨by decide, by decide, by decide, by decide⟩

/-- C3 (amended): Entry.refresh performs a real metadata query exactly when
the 32-bit unsigned difference currentTime - lastQueryTime is at least t; an
entry queried twice within t seconds (t below 2^32) performs no real query
on the second call and returns the identical outcome, error code and
metadata; once t seconds have elapsed AND the elapsed time is below 2^32, a
subsequent call performs exactly one real query; and t = 0 performs a real
query on every call. (The amendment adds the below-2^32 bound on the elapsed
time, forced by the wraparound counterexample.) -/
theorem C3_amended_throttle :
    (∀ (e : Entry) (resp : StatResponse) (ct : Int) (errno0 t : Nat),
        ((ct - e.last_time) % twoPow32).toNat < t →
        e.refresh (ClockResult.ok ct) resp errno0 t = some (e, e.last_result, e.last_errno)) ∧
    (∀ (e : Entry) (resp : StatResponse) (ct : Int) (errno0 t : Nat),
        t ≤ ((ct - e.last_time) % twoPow32).toNat →
        e.refresh (ClockResult.ok ct) resp errno0 t = e.applyStat resp ct errno0) ∧
    (∀ (e e1 : Entry) (r1 : Int) (er1 : Nat) (resp1 resp2 : StatResponse)
        (ct1 ct2 : Int) (e0a e0b t : Nat),
        t < 4294967296 →
        t ≤ ((ct1 - e.last_time) % twoPow32).toNat →
        e.refresh (ClockResult.ok ct1) resp1 e0a t = some (e1, r1, er1) →
        ct1 ≤ ct2 → ct2 < ct1 + (t : Int) →
        e1.refresh (ClockResult.ok ct2) resp2 e0b t = some (e1, r1, er1)) ∧
    (∀ (e : Entry) (resp : StatResponse) (ct : Int) (errno0 t : Nat),
        (t : Int) ≤ ct - e.last_time → ct - e.last_time < 4294967296 →
        e.refresh (ClockResult.ok ct) resp errno0 t = e.applyStat resp ct errno0) ∧
    (∀ (e : Entry) (resp : StatResponse) (ct : Int) (errno0 : Nat),
        e.refresh (ClockResult.ok ct) resp errno0 0 = e.applyStat resp ct errno0) := by
  refine ⟨?_, ?_, ?_, ?_, ?_⟩
  · intro e resp ct errno0 t h
    exact refresh_no_trigger h
  · intro e resp ct errno0 t h
    exact refresh_trigger h
  · intro e e1 r1 er1 resp1 resp2 ct1 ct2 e0a e0b t ht32 htrig h1 h12 h2t
    rw [refresh_trigger htrig] at h1
    have hfacts : e1.last_time = ct1 ∧ e1.last_result = r1 ∧ e1.last_errno = er1 := by
      cases resp1 with
      | interrupted => simp [Entry.applyStat] at h1
      | ok info =>
          simp only [Entry.applyStat, Option.some.injEq, Prod.mk.injEq] at h1
          obtain ⟨hee, hrr, herr⟩ := h1
          subst hrr
          subst herr
          rw [← hee]
          exact ⟨rfl, rfl, rfl⟩
      | error c =>
          simp only [Entry.applyStat, Option.some.injEq, Prod.mk.injEq] at h1
          obtain ⟨hee, hrr, herr⟩ := h1
          subst hrr
          subst herr
          rw [← hee]
          exact ⟨rfl, rfl, rfl⟩
    have hlt : ((ct2 - e1.last_time) % twoPow32).toNat < t := by
      rw [hfacts.1]
      unfold twoPow32
      omega
    rw [refresh_no_trigger hlt, hfacts.2.1, hfacts.2.2]
  · intro e resp ct errno0 t h1 h2
    apply refresh_trigger
    unfold twoPow32
    omega
  · intro e resp ct errno0
    apply refresh_trigger
    exact Nat.zero_le _

/-- Witness for the amended C3 at concrete inputs (one per conjunct). -/
theorem C3_amended_throttle_witness :
    ((Entry.mk0 "a").refresh (ClockResult.ok 3) (StatResponse.error 2) 0 5 =
      some (Entry.mk0 "a", -1, 0)) ∧
    ((Entry.mk0 "a").refresh (ClockResult.ok 7) (StatResponse.error 2) 0 5 =
      (Entry.mk0 "a").applyStat (StatResponse.error 2) 7 0) ∧
    (({ Entry.mk0 "a" with last_result := -1, last_errno := 2, last_time := 10 } : Entry).refresh
        (ClockResult.ok 12) (StatResponse.ok StatInfo.zero) 0 5 =
      some (({ Entry.mk0 "a" with last_result := -1, last_errno := 2, last_time := 10 } : Entry),
        -1, 2)) ∧
    ((Entry.mk0 "a").refresh (ClockResult.ok 9) (StatResponse.error 2) 0 5 =
      (Entry.mk0 "a").applyStat (StatResponse.error 2) 9 0) ∧
    ((Entry.mk0 "a").refresh (ClockResult.ok 4) (StatResponse.error 2) 0 0 =
      (Entry.mk0 "a").applyStat (StatResponse.error 2) 4 0) :=
  ⟨C3_amended_throttle.1 (Entry.mk0 "a") (StatResponse.error 2) 3 0 5 (by decide),
   C3_amended_throttle.2.1 (Entry.mk0 "a") (StatResponse.error 2) 7 0 5 (by decide),
   C3_amended_throttle.2.2.1 (Entry.mk0 "a")
     ({ Entry.mk0 "a" with last_result := -1, last_errno := 2, last_time := 10 }) (-1) 2
     (StatResponse.error 2) (StatResponse.ok StatInfo.zero) 10 12 0 0 5
     (by decide) (by decide) (by decide) (by decide) (by decide),
   C3_amended_throttle.2.2.2.1 (Entry.mk0 "a") (StatResponse.error 2) 9 0 5 (by decide) (by decide),
   C3_amended_throttle.2.2.2.2 (Entry.mk0 "a") (StatResponse.error 2) 4 0⟩

/-- C8 counterexample: an entry whose last_time lies 2^32 seconds in the
future of the current clock value (a negative observed gap), with throttle
interval 1: the claim predicts a forced real query, but the 32-bit unsigned
wrap of the gap is 0, which is below the interval, so the cached data is
returned and no real query runs. -/
theorem C8_counterexample :
    ((0 : Int) < ({ Entry.mk0 "a" with last_time := 4294967296 } : Entry).last_time) ∧
    (({ Entry.mk0 "a" with last_time := 4294967296 } : Entry).refresh (ClockResult.ok 0)
        (StatResponse.error 2) 0 1 =
      some (({ Entry.mk0 "a" with last_time := 4294967296 } : Entry), -1, 0)) ∧
    (({ Entry.mk0 "a" with last_time := 4294967296 } : Entry).refresh (ClockResult.ok 0)
        (StatResponse.error 2) 0 1 ≠
      ({ Entry.mk0 "a" with last_time := 4294967296 } : Entry).applyStat
        (StatResponse.error 2) 0 0) := by
  refine ⟨by decide, by decide, by decide⟩

/-- C8 (amended): when lastQueryTime exceeds the current clock value,
Entry.refresh performs a real metadata query provided the backward gap
lastQueryTime - currentTime is at most 2^32 - t: the gap wraps to the
unsigned value 2^32 - gap, which is then at least t. (The amendment adds
this bound on the gap, forced by the counterexample with gap 2^32; the claim
holds for every realistic backward clock adjustment.) -/
theorem C8_amended (e : Entry) (ct : Int) (t : Nat) (resp : StatResponse) (errno0 : Nat)
    (h1 : ct < e.last_time) (h2 : e.last_time - ct ≤ (4294967296 : Int) - (t : Int)) :
    e.refresh (ClockResult.ok ct) resp errno0 t = e.applyStat resp ct errno0 := by
  apply refresh_trigger
  unfold twoPow32
  omega

/-- Witness for the amended C8: a clock 60 seconds in the past still forces
a real query. -/
theorem C8_amended_witness :
    ((40 : Int) < ({ Entry.mk0 "a" with last_time := 100 } : Entry).last_time) ∧
    (({ Entry.mk0 "a" with last_time := 100 } : Entry).refresh (ClockResult.ok 40)
        (StatResponse.error 2) 0 5 =
      ({ Entry.mk0 "a" with last_time := 100 } : Entry).applyStat (StatResponse.error 2) 40 0) :=
  ⟨by decide, C8_amended ({ Entry.mk0 "a" with last_time := 100 }) 40 5
    (StatResponse.error 2) 0 (by decide) (by decide)⟩

/-- C10: querying a path absent from the cache with a throttle interval
strictly greater than the current clock value (as a 32-bit unsigned value)
performs no real filesystem query and returns the fresh entry's initial
state: result -1, errno 0, and the all-zero metadata record. The returned
data does not depend on the provider response. -/
theorem C10_miss_initial (cfs : CachedFileStat) (f : String) (ct : Int)
    (resp : StatResponse) (errno0 t : Nat)
    (hmiss : smGet cfs.cache f = none)
    (ht : (ct % twoPow32).toNat < t) :
    (cfs.statOp f (ClockResult.ok ct) resp errno0 t).2 = some (-1, 0, StatInfo.zero) := by
  have hct : ((ct - (Entry.mk0 f).last_time) % twoPow32).toNat < t := by
    simpa [Entry.mk0] using ht
  have hr := @refresh_no_trigger (Entry.mk0 f) ct resp errno0 t hct
  rw [statOp_miss_some hmiss hr]
  rfl

/-- Witness for C10: clock 3, throttle 5 on an empty cache. -/
theorem C10_miss_initial_witness :
    (smGet (CachedFileStat.init 0).cache "a" = none) ∧
    (((3 : Int) % twoPow32).toNat < 5) ∧
    ((CachedFileStat.init 0).statOp "a" (ClockResult.ok 3)
        (StatResponse.ok { st_mode := 1, st_uid := 2, st_gid := 3, st_size := 4, st_mtime := 5 })
        7 5).2 = some (-1, 0, StatInfo.zero) :=
  ⟨by decide, by decide,
   C10_miss_initial (CachedFileStat.init 0) "a" 3
     (StatResponse.ok { st_mode := 1, st_uid := 2, st_gid := 3, st_size := 4, st_mtime := 5 })
     7 5 (by decide) (by decide)⟩

/-- C1 counterexample: with an empty unbounded cache, a query for a fresh
path during which the clock throws does propagate the failure (no result is
produced), but the cache structure is mutated: the new entry was inserted
before refresh ran, so the structure afterwards differs from the structure
before the call and the queried path is reported present. -/
theorem C1_counterexample :
    (((CachedFileStat.init 0).statOp "a" ClockResult.interrupted (StatResponse.ok StatInfo.zero)
        0 5).2 = none) ∧
    (((CachedFileStat.init 0).statOp "a" ClockResult.interrupted (StatResponse.ok StatInfo.zero)
        0 5).1 ≠ CachedFileStat.init 0) ∧
    (((CachedFileStat.init 0).statOp "a" ClockResult.interrupted (StatResponse.ok StatInfo.zero)
        0 5).1.knows "a" = true) := by
  refine ⟨by decide, by decide, by decide⟩

/-- C1 (amended): when a query's refresh throws (clock failure or a
cancellation/interrupt during the clock read or the stat call), the failure
propagates to the caller as a hard failure (no result, nothing recorded as
data) and no entry's cached stat state is mutated: every entry present
afterwards is either an entry that was already present, unchanged, or the
freshly created initial entry for the queried path. The structural
bookkeeping performed before refresh (LRU promotion, insertion of the fresh
entry, capacity eviction) does persist, which the counterexample forces the
original claim to concede. -/
theorem C1_amended (cfs : CachedFileStat) (f : String) (clock : ClockResult)
    (resp : StatResponse) (errno0 t : Nat)
    (h : (cfs.statOp f clock resp errno0 t).2 = none) :
    ∀ p ∈ (cfs.statOp f clock resp errno0 t).1.entries,
      p ∈ cfs.entries ∨ p.2 = Entry.mk0 f := by
  cases hg : smGet cfs.cache f with
  | none =>
      cases hr : (Entry.mk0 f).refresh clock resp errno0 t with
      | some v =>
          obtain ⟨e2, ret, err⟩ := v
          rw [statOp_miss_some hg hr] at h
          simp at h
      | none =>
          rw [statOp_miss_none hg hr]
          intro p hp
          rw [missState_entries] at hp
          rcases List.mem_cons.1 hp with h1 | h1
          · right
            rw [h1]
          · left
            by_cases hfull : cfs.maxSize ≠ 0 ∧ cfs.cache.length = cfs.maxSize
            · rw [if_pos hfull] at h1
              rw [popBack_entries] at h1
              exact (List.dropLast_sublist _).subset h1
            · rw [if_neg hfull] at h1
              exact h1
  | some id =>
      cases hn : findNode cfs.entries id with
      | none =>
          rw [statOp_hit_dangling hg hn]
          intro p hp
          exact Or.inl hp
      | some n =>
          cases hr : n.2.refresh clock resp errno0 t with
          | some v =>
              obtain ⟨e2, ret, err⟩ := v
              rw [statOp_hit_some hg hn hr] at h
              simp at h
          | none =>
              rw [statOp_hit_none hg hn hr]
              intro p hp
              simp only [CachedFileStat.hitState] at hp
              left
              rcases List.mem_cons.1 hp with h1 | h1
              · rw [h1]
                exact (findNode_some hn).2
              · exact eraseNode_subset p h1

/-- Witness for the amended C1: the interrupted query on an empty cache
yields no result, and the single entry present afterwards is the fresh
initial entry. -/
theorem C1_amended_witness :
    ((0, Entry.mk0 "a") ∈ ((CachedFileStat.init 0).statOp "a" ClockResult.interrupted
        (StatResponse.ok StatInfo.zero) 0 5).1.entries) ∧
    ((0, Entry.mk0 "a") ∈ (CachedFileStat.init 0).entries ∨
      ((0 : Nat), Entry.mk0 "a").2 = Entry.mk0 "a") :=
  ⟨by decide,
   C1_amended (CachedFileStat.init 0) "a" ClockResult.interrupted
     (StatResponse.ok StatInfo.zero) 0 5 (by decide) (0, Entry.mk0 "a") (by decide)⟩

/-- C4: after any sequence of query and setCapacity operations starting from
a freshly constructed cache, the length of the order list equals the number
of keys in the index map, and whenever the capacity is nonzero this common
size does not exceed the capacity. -/
theorem C4_sizes (m0 : Nat) (ops : List CacheOp) :
    ((runOps (CachedFileStat.init m0) ops).cache.length =
      (runOps (CachedFileStat.init m0) ops).entries.length) ∧
    ((runOps (CachedFileStat.init m0) ops).maxSize ≠ 0 →
      (runOps (CachedFileStat.init m0) ops).entries.length ≤
        (runOps (CachedFileStat.init m0) ops).maxSize) := by
  have hInv := Inv_runOps (Inv_init m0) ops
  constructor
  · have := hInv.1.length_eq
    simpa [nodeKeys] using this
  · exact hInv.2.2.2.2

/-- Witness for C4 on a concrete operation sequence (two queries, then a
shrink to capacity 1). -/
theorem C4_sizes_witness :
    ((runOps (CachedFileStat.init 2)
        [CacheOp.query ⟨"a", ClockResult.ok 0, StatResponse.error 2, 0, 0⟩,
         CacheOp.query ⟨"b", ClockResult.ok 0, StatResponse.error 2, 0, 0⟩,
         CacheOp.setCapacity 1]).cache.length =
      (runOps (CachedFileStat.init 2)
        [CacheOp.query ⟨"a", ClockResult.ok 0, StatResponse.error 2, 0, 0⟩,
         CacheOp.query ⟨"b", ClockResult.ok 0, StatResponse.error 2, 0, 0⟩,
         CacheOp.setCapacity 1]).entries.length) ∧
    ((runOps (CachedFileStat.init 2)
        [CacheOp.query ⟨"a", ClockResult.ok 0, StatResponse.error 2, 0, 0⟩,
         CacheOp.query ⟨"b", ClockResult.ok 0, StatResponse.error 2, 0, 0⟩,
         CacheOp.setCapacity 1]).entries.length ≤
      (runOps (CachedFileStat.init 2)
        [CacheOp.query ⟨"a", ClockResult.ok 0, StatResponse.error 2, 0, 0⟩,
         CacheOp.query ⟨"b", ClockResult.ok 0, StatResponse.error 2, 0, 0⟩,
         CacheOp.setCapacity 1]).maxSize) :=
  ⟨(C4_sizes 2 [CacheOp.query ⟨"a", ClockResult.ok 0, StatResponse.error 2, 0, 0⟩,
      CacheOp.query ⟨"b", ClockResult.ok 0, StatResponse.error 2, 0, 0⟩,
      CacheOp.setCapacity 1]).1,
   (C4_sizes 2 [CacheOp.query ⟨"a", ClockResult.ok 0, StatResponse.error 2, 0, 0⟩,
      CacheOp.query ⟨"b", ClockResult.ok 0, StatResponse.error 2, 0, 0⟩,
      CacheOp.setCapacity 1]).2 (by decide)⟩

theorem setMaxSize_entries (cfs : CachedFileStat) (n : Nat) :
    (cfs.setMaxSize n).entries =
      if n ≠ 0 then
        cfs.entries.take (cfs.entries.length - ((cfs.cache.length : Int) - (n : Int)).toNat)
      else cfs.entries := by
  simp only [CachedFileStat.setMaxSize]
  by_cases hn : n ≠ 0
  · rw [if_pos hn, if_pos hn]
    exact popBackN_entries _ _
  · rw [if_neg hn, if_neg hn]

/-- C7: setMaxSize(n) on a cache of current size s evicts entries only when
n is nonzero and n is below s, in which case it keeps exactly the first
(most recent) n entries — removing s - n entries from the tail, oldest
first, with the survivors and their relative order unchanged — leaving size
n; n = 0 (unbounded) evicts nothing and n at least s evicts nothing. The
stored capacity becomes n in every case. -/
theorem C7_setMaxSize (cfs : CachedFileStat) (n : Nat) (hInv : cfs.Inv) :
    ((cfs.setMaxSize n).maxSize = n) ∧
    (n = 0 ∨ cfs.entries.length ≤ n → (cfs.setMaxSize n).entries = cfs.entries) ∧
    (n ≠ 0 → n < cfs.entries.length →
      (cfs.setMaxSize n).entries = cfs.entries.take n ∧
      (cfs.setMaxSize n).entries.length = n) := by
  have hlc : cfs.cache.length = cfs.entries.length := by
    have := hInv.1.length_eq
    simpa [nodeKeys] using this
  refine ⟨?_, ?_, ?_⟩
  · simp [CachedFileStat.setMaxSize]
  · intro hcase
    rw [setMaxSize_entries]
    rcases hcase with h0 | hle
    · rw [if_neg (by simpa using h0)]
    · by_cases hn : n ≠ 0
      · rw [if_pos hn]
        have hk : ((cfs.cache.length : Int) - (n : Int)).toNat = 0 := by omega
        rw [hk]
        simp
      · rw [if_neg hn]
  · intro hn hlt
    rw [setMaxSize_entries, if_pos hn]
    have hk : ((cfs.cache.length : Int) - (n : Int)).toNat = cfs.entries.length - n := by omega
    rw [hk]
    have h2 : cfs.entries.length - (cfs.entries.length - n) = n := by omega
    rw [h2]
    refine ⟨rfl, ?_⟩
    rw [List.length_take]
    exact inf_eq_left.2 (le_of_lt hlt)

/-- Witness for C7: shrinking a two-entry cache to capacity 1 keeps exactly
the most recent entry. -/
theorem C7_setMaxSize_witness :
    ((CachedFileStat.setMaxSize
        { maxSize := 0, entries := [(1, Entry.mk0 "b"), (0, Entry.mk0 "a")],
          cache := [("a", 0), ("b", 1)], nextId := 2 } 1).maxSize = 1) ∧
    ((CachedFileStat.setMaxSize
        { maxSize := 0, entries := [(1, Entry.mk0 "b"), (0, Entry.mk0 "a")],
          cache := [("a", 0), ("b", 1)], nextId := 2 } 1).entries =
      ([(1, Entry.mk0 "b"), (0, Entry.mk0 "a")] : List (Nat × Entry)).take 1) ∧
    ((CachedFileStat.setMaxSize
        { maxSize := 0, entries := [(1, Entry.mk0 "b"), (0, Entry.mk0 "a")],
          cache := [("a", 0), ("b", 1)], nextId := 2 } 1).entries.length = 1) := by
  have h := C7_setMaxSize
    { maxSize := 0, entries := [(1, Entry.mk0 "b"), (0, Entry.mk0 "a")],
      cache := [("a", 0), ("b", 1)], nextId := 2 } 1 (by decide)
  exact ⟨h.1, (h.2.2 (by decide) (by decide)).1, (h.2.2 (by decide) (by decide)).2⟩

/-- C5: starting from an empty cache with nonzero capacity C, querying C + 1
distinct paths in order evicts exactly the least recently used entry: the
cache afterwards does not contain the first path but contains every one of
the later C paths. -/
theorem C5_lru_eviction (C : Nat) (hC : C ≠ 0) (calls : List QueryCall) (q1 : QueryCall)
    (hlen : calls.length = C + 1)
    (hnd : (calls.map QueryCall.filename).Nodup)
    (hq1 : calls.head? = some q1) :
    ((runQueries (CachedFileStat.init C) calls).knows q1.filename = false) ∧
    (∀ q ∈ calls.tail, (runQueries (CachedFileStat.init C) calls).knows q.filename = true) := by
  cases calls with
  | nil => simp at hq1
  | cons q0 rest =>
      have hq0 : q0 = q1 := by simpa using hq1
      subst hq0
      have hrl : rest.length = C := by simpa using hlen
      have hInv0 := Inv_init C
      have hfresh : ∀ q ∈ q0 :: rest, q.filename ∉ keysOf (CachedFileStat.init C) := by
        intro q _
        simp [keysOf, CachedFileStat.init]
      have hms0 : (CachedFileStat.init C).maxSize ≠ 0 := hC
      have hkeys := fresh_queries_keys (q0 :: rest) (CachedFileStat.init C) hInv0 hms0 hfresh hnd
      have hkinit : keysOf (CachedFileStat.init C) = [] := rfl
      have hmsC : (CachedFileStat.init C).maxSize = C := rfl
      rw [hkinit, hmsC, List.append_nil] at hkeys
      have hkeys2 : keysOf (runQueries (CachedFileStat.init C) (q0 :: rest)) =
          (rest.map QueryCall.filename).reverse := by
        rw [hkeys]
        simp only [List.map_cons, List.reverse_cons]
        have hlr : (rest.map QueryCall.filename).reverse.length = C := by
          simp [hrl]
        rw [← hlr]
        exact List.take_left _ _
      have hInvF := Inv_runQueries hInv0 (q0 :: rest)
      simp only [List.map_cons, List.nodup_cons] at hnd
      constructor
      · have hnotmem : q0.filename ∉ keysOf (runQueries (CachedFileStat.init C) (q0 :: rest)) := by
          rw [hkeys2, List.mem_reverse]
          exact hnd.1
        cases hkb : (runQueries (CachedFileStat.init C) (q0 :: rest)).knows q0.filename with
        | false => rfl
        | true => exact absurd ((knows_iff hInvF _).1 hkb) hnotmem
      · intro q hq
        apply (knows_iff hInvF _).2
        rw [hkeys2, List.mem_reverse]
        simp only [List.tail_cons] at hq
        exact List.mem_map.2 ⟨q, hq, rfl⟩

/-- Witness for C5: capacity 2, paths a, b, c queried in order; a is evicted,
b and c remain. -/
theorem C5_lru_eviction_witness :
    ((runQueries (CachedFileStat.init 2)
        [⟨"a", ClockResult.ok 0, StatResponse.error 2, 0, 0⟩,
         ⟨"b", ClockResult.ok 0, StatResponse.error 2, 0, 0⟩,
         ⟨"c", ClockResult.ok 0, StatResponse.error 2, 0, 0⟩]).knows "a" = false) ∧
    ((runQueries (CachedFileStat.init 2)
        [⟨"a", ClockResult.ok 0, StatResponse.error 2, 0, 0⟩,
         ⟨"b", ClockResult.ok 0, StatResponse.error 2, 0, 0⟩,
         ⟨"c", ClockResult.ok 0, StatResponse.error 2, 0, 0⟩]).knows "b" = true) ∧
    ((runQueries (CachedFileStat.init 2)
        [⟨"a", ClockResult.ok 0, StatResponse.error 2, 0, 0⟩,
         ⟨"b", ClockResult.ok 0, StatResponse.error 2, 0, 0⟩,
         ⟨"c", ClockResult.ok 0, StatResponse.error 2, 0, 0⟩]).knows "c" = true) := by
  have h := C5_lru_eviction 2 (by decide)
    [⟨"a", ClockResult.ok 0, StatResponse.error 2, 0, 0⟩,
     ⟨"b", ClockResult.ok 0, StatResponse.error 2, 0, 0⟩,
     ⟨"c", ClockResult.ok 0, StatResponse.error 2, 0, 0⟩]
    ⟨"a", ClockResult.ok 0, StatResponse.error 2, 0, 0⟩
    (by decide) (by decide) (by decide)
  exact ⟨h.1, h.2 ⟨"b", ClockResult.ok 0, StatResponse.error 2, 0, 0⟩ (by decide),
    h.2 ⟨"c", ClockResult.ok 0, StatResponse.error 2, 0, 0⟩ (by decide)⟩

/-- C6: querying a path already present moves its entry to the head of the
recency order (the node is spliced to the front) and the index maps the path
to the head node's id; consequently, in a cache at nonzero capacity C, the
just re-queried path survives the evictions caused by querying up to C - 1
other paths afterwards. -/
theorem C6_hit_promotion (cfs : CachedFileStat) (q0 : QueryCall) (qs : List QueryCall)
    (hInv : cfs.Inv) (hknows : cfs.knows q0.filename = true)
    (hms : cfs.maxSize ≠ 0)
    (hlen : qs.length + 1 ≤ cfs.maxSize)
    (hne : ∀ q ∈ qs, q.filename ≠ q0.filename) :
    ((applyQuery cfs q0).entries.head?.map (fun p => p.2.filename) = some q0.filename) ∧
    (smGet (applyQuery cfs q0).cache q0.filename =
      (applyQuery cfs q0).entries.head?.map Prod.fst) ∧
    ((runQueries (applyQuery cfs q0) qs).knows q0.filename = true) := by
  cases hg : smGet cfs.cache q0.filename with
  | none =>
      unfold CachedFileStat.knows at hknows
      rw [hg] at hknows
      simp at hknows
  | some id =>
      rcases hit_resolve hInv hg with ⟨n, hn, hid, hfn, hle⟩
      obtain ⟨e', hef, hentries, hcache⟩ :
          ∃ e', e'.filename = q0.filename ∧
            (applyQuery cfs q0).entries = (n.1, e') :: eraseNode cfs.entries id ∧
            (applyQuery cfs q0).cache = smSet cfs.cache q0.filename id := by
        cases hr : n.2.refresh q0.clock q0.resp q0.errno0 q0.throttleRate with
        | none =>
            refine ⟨n.2, hfn, ?_, ?_⟩
            · show ((cfs.statOp _ _ _ _ _).1).entries = _
              rw [statOp_hit_none hg hn hr]
              rfl
            · show ((cfs.statOp _ _ _ _ _).1).cache = _
              rw [statOp_hit_none hg hn hr]
              rfl
        | some v =>
            obtain ⟨e2, ret, err⟩ := v
            refine ⟨e2, (refresh_filename hr).trans hfn, ?_, ?_⟩
            · show ((cfs.statOp _ _ _ _ _).1).entries = _
              rw [statOp_hit_some hg hn hr]
              rfl
            · show ((cfs.statOp _ _ _ _ _).1).cache = _
              rw [statOp_hit_some hg hn hr]
              rfl
      refine ⟨?_, ?_, ?_⟩
      · rw [hentries]
        simp [hef]
      · rw [hcache, hentries, smGet_smSet_self]
        simp [hid]
      · have hInv1 : (applyQuery cfs q0).Inv := Inv_statOp hInv _ _ _ _ _
        apply (knows_iff (Inv_runQueries hInv1 qs) _).2
        apply survive_queries qs (applyQuery cfs q0) 0 hInv1 ?_ hne ?_ ?_
        · show (cfs.statOp _ _ _ _ _).1.maxSize ≠ 0
          rw [statOp_maxSize]
          exact hms
        · show 0 + qs.length + 1 ≤ (cfs.statOp _ _ _ _ _).1.maxSize
          rw [statOp_maxSize]
          omega
        · unfold keysOf
          rw [hentries]
          simp [hef]

/-- Witness for C6: a two-entry cache at capacity 2; re-querying the older
path a promotes it to the head, and a being most recently used survives the
eviction caused by querying a third path c. -/
theorem C6_hit_promotion_witness :
    ((applyQuery
        { maxSize := 2, entries := [(1, Entry.mk0 "b"), (0, Entry.mk0 "a")],
          cache := [("a", 0), ("b", 1)], nextId := 2 }
        ⟨"a", ClockResult.ok 0, StatResponse.error 2, 0, 0⟩).entries.head?.map
      (fun p => p.2.filename) = some "a") ∧
    ((runQueries (applyQuery
        { maxSize := 2, entries := [(1, Entry.mk0 "b"), (0, Entry.mk0 "a")],
          cache := [("a", 0), ("b", 1)], nextId := 2 }
        ⟨"a", ClockResult.ok 0, StatResponse.error 2, 0, 0⟩)
        [⟨"c", ClockResult.ok 0, StatResponse.error 2, 0, 0⟩]).knows "a" = true) := by
  have h := C6_hit_promotion
    { maxSize := 2, entries := [(1, Entry.mk0 "b"), (0, Entry.mk0 "a")],
      cache := [("a", 0), ("b", 1)], nextId := 2 }
    ⟨"a", ClockResult.ok 0, StatResponse.error 2, 0, 0⟩
    [⟨"c", ClockResult.ok 0, StatResponse.error 2, 0, 0⟩]
    (by decide) (by decide) (by decide) (by decide) (by decide)
  exact ⟨h.1, h.2.2⟩

/-- C9: a query whose real metadata query fails is treated structurally like
a success: the failed outcome (-1 with its error code) is cached and
returned as data together with the prior snapshot, the path is reported
present, the entry is promoted to most recently used, and a second query
within the throttle interval performs no real query (its result does not
consult the provider at all) and returns the identical cached failure. -/
theorem C9_failure_like_success (cfs : CachedFileStat) (f : String) (ct1 ct2 : Int)
    (code errno0a errno0b t : Nat) (resp2 : StatResponse)
    (hInv : cfs.Inv) (ht32 : t < 4294967296)
    (htrig : t ≤ ((ct1 - (cfs.lookupEntry f).last_time) % twoPow32).toNat)
    (h12 : ct1 ≤ ct2) (h2t : ct2 < ct1 + (t : Int)) :
    ((cfs.statOp f (ClockResult.ok ct1) (StatResponse.error code) errno0a t).2 =
      some (-1, code, (cfs.lookupEntry f).info)) ∧
    ((cfs.statOp f (ClockResult.ok ct1) (StatResponse.error code) errno0a t).1.knows f = true) ∧
    ((cfs.statOp f (ClockResult.ok ct1) (StatResponse.error code) errno0a t).1.entries.head?.map
        (fun p => p.2.filename) = some f) ∧
    (((cfs.statOp f (ClockResult.ok ct1) (StatResponse.error code) errno0a t).1.statOp f
        (ClockResult.ok ct2) resp2 errno0b t).2 = some (-1, code, (cfs.lookupEntry f).info)) ∧
    (((cfs.statOp f (ClockResult.ok ct1) (StatResponse.error code) errno0a t).1.statOp f
        (ClockResult.ok ct2) resp2 errno0b t).1.entries.head?.map
      (fun p => p.2.filename) = some f) := by
  obtain ⟨e2, he2⟩ : ∃ e2 : Entry, e2 =
      { cfs.lookupEntry f with last_result := -1, last_errno := code, last_time := ct1 } :=
    ⟨_, rfl⟩
  have hinfo : e2.info = (cfs.lookupEntry f).info := by rw [he2]
  have hfn2 : e2.filename = (cfs.lookupEntry f).filename := by rw [he2]
  have hlt2 : e2.last_time = ct1 := by rw [he2]
  have hres2a : e2.last_result = -1 := by rw [he2]
  have herr2 : e2.last_errno = code := by rw [he2]
  have hr1 : (cfs.lookupEntry f).refresh (ClockResult.ok ct1) (StatResponse.error code) errno0a t =
      some (e2, -1, code) := by
    rw [he2, refresh_trigger htrig]
    rfl
  rcases statOp_head_some hInv hr1 with ⟨i, rest, hent, hres, hget⟩
  have hlook1 : ((cfs.statOp f (ClockResult.ok ct1) (StatResponse.error code)
      errno0a t).1).lookupEntry f = e2 := by
    unfold CachedFileStat.lookupEntry
    simp only [hget, hent, findNode]
    simp
  have hltx : ((ct2 - e2.last_time) % twoPow32).toNat < t := by
    rw [hlt2]
    unfold twoPow32
    omega
  have hr2 : (((cfs.statOp f (ClockResult.ok ct1) (StatResponse.error code)
      errno0a t).1).lookupEntry f).refresh (ClockResult.ok ct2) resp2 errno0b t =
      some (((cfs.statOp f (ClockResult.ok ct1) (StatResponse.error code)
        errno0a t).1).lookupEntry f, -1, code) := by
    rw [hlook1, refresh_no_trigger hltx, hres2a, herr2]
  have hInv1 : ((cfs.statOp f (ClockResult.ok ct1) (StatResponse.error code)
      errno0a t).1).Inv := Inv_statOp hInv _ _ _ _ _
  rcases statOp_head_some hInv1 hr2 with ⟨i2, rest2, hent2, hres2, hget2⟩
  refine ⟨?_, ?_, ?_, ?_, ?_⟩
  · rw [hres, hinfo]
  · unfold CachedFileStat.knows
    rw [hget]
    rfl
  · rw [hent]
    simp [hfn2, lookupEntry_filename hInv f]
  · rw [hres2, hlook1, hinfo]
  · rw [hent2, hlook1]
    simp [hfn2, lookupEntry_filename hInv f]

/-- Witness for C9 on an empty cache: the first query for a at time 10 with
throttle 5 fails with code 2; the second at time 12 returns the cached
failure. -/
theorem C9_failure_like_success_witness :
    (((CachedFileStat.init 0).statOp "a" (ClockResult.ok 10) (StatResponse.error 2) 0 5).2 =
      some (-1, 2, ((CachedFileStat.init 0).lookupEntry "a").info)) ∧
    (((CachedFileStat.init 0).statOp "a" (ClockResult.ok 10) (StatResponse.error 2) 0 5).1.knows
      "a" = true) ∧
    ((((CachedFileStat.init 0).statOp "a" (ClockResult.ok 10) (StatResponse.error 2)
        0 5).1.statOp "a" (ClockResult.ok 12) (StatResponse.ok StatInfo.zero) 0 5).2 =
      some (-1, 2, ((CachedFileStat.init 0).lookupEntry "a").info)) := by
  have h := C9_failure_like_success (CachedFileStat.init 0) "a" 10 12 2 0 0 5
    (StatResponse.ok StatInfo.zero) (Inv_init 0) (by decide) (by decide) (by decide) (by decide)
  exact ⟨h.1, h.2.1, h.2.2.2.1⟩

end PassengerCFS
